import Mathlib

/-!
# IRAD communication layer (`src/include/COMM.H`)

A shallow embedding of the collective operations of `IRAD::Comm::CommunicatorObject`.

Conventions of the embedding.

* A group of `nproc` cooperating processes is described rank by rank: a per-rank
  variable `x` of the C++ code is a function `x : Nat → T`, the value held by rank
  `rank` being `x rank`; only ranks below `nproc` belong to the group.  Every rank
  runs the same member function, so a member function is embedded as a
  transformer of these per-rank variables, one `let` per source statement.
* `std::vector<T>` is `List T`.  A buffer handed to the transport is a sequence of
  cells; the transport moves whole cells.  The source always transfers
  `MPI_CHAR` units, `sizeof(DataType)` of them per element, so a count of
  `k * sizeof(DataType)` units covers exactly `k` cells.
* C++ `int` values (sizes, counts, displacements, return codes) are mathematical
  integers in the data movement of the collectives: the sizes of the sequences the
  ranks hold are taken to fit an `int`, and executions in which a signed computation
  would overflow are outside that part of the embedding.
* Where a property is about the values the `int` cells themselves hold (the byte-size
  and displacement tables of `Gatherv` and `Scatterv`, the reduction of `AllReduce`)
  the same source lines are also embedded with the 32-bit cells spelled out, under the
  names ending in `_int32`, and the two readings are proved equal while the values fit.
* The MPI primitives are external to the repository; they are embedded by what
  the MPI standard says they do on the arguments the source hands them.
* Where the width of an integer decides the behaviour (the byte size computed by
  the typed point-to-point overloads, the menu layout of `Menu.H`, which mixes signed
  and unsigned operands) the conversions are spelled out with `toInt32`, `toUInt32`
  and `toSize`.

The later sections embed `MobileObject`, the menu of `src/include/Menu.H` and the
library loader of `src/include/DLTools.H`.
-/

namespace IRAD

/-! ## Integer conversions -/

/-- The value an `int` holds after a conversion from a wider or an unsigned type: the
32-bit two's complement reading of the operand. -/
def toInt32 (x : Int) : Int :=
  (x + 2 ^ 31) % 2 ^ 32 - 2 ^ 31

/-- The value an `unsigned int` holds after a conversion: the operand modulo `2^32`. -/
def toUInt32 (x : Int) : Int :=
  x % 2 ^ 32

/-- The value a `size_t` (`std::string::size_type`) holds: the operand modulo `2^64`. -/
def toSize (x : Int) : Int :=
  x % 2 ^ 64

namespace Comm

/-! ## Enumerations (COMM.H lines 18-21) -/

/-- Supported data types. -/
inductive DataTypes where
  | DTDOUBLE | DTFLOAT | DTINT | DTUINT | DTSIZET | DTCHAR | DTUCHAR | DTBYTE | DTUBYTE
  deriving DecidableEq

/-- Operations for collectives. -/
inductive Ops where
  | MAXOP | MINOP | SUMOP | PRODOP | MINLOCOP | MAXLOCOP
  deriving DecidableEq

/-! ## Vectors and raw buffers -/

/-- The call `std::vector::resize(k, val)`: keep the first `k` elements, pad with `val`. -/
def resize {α : Type} (v : List α) (k : Nat) (val : α) : List α :=
  v.take k ++ List.replicate (k - v.length) val

/-- Number of whole cells covered by `count` transferred units, one cell being `cell` units. -/
def cells (cell : Nat) (count : Int) : Nat :=
  (count / (cell : Int)).toNat

/-- Copy of the message `msg` into the buffer `buf` starting at cell `off`; the
buffer keeps its length (the part of the message past the end is not stored). -/
def writeAt {α : Type} (buf : List α) (off : Nat) (msg : List α) : List α :=
  buf.take off ++ msg.take (buf.length - off) ++ buf.drop (off + msg.length)

/-- The `len` cells of `buf` that start at cell `off`. -/
def readAt {α : Type} (buf : List α) (off len : Nat) : List α :=
  (buf.drop off).take len

/-! ## Size and displacement tables (COMM.H lines 353-366 and 389-395) -/

/-- The loop of `Gatherv` (lines 353-354, 361-365) on mathematical integers:
`allsizes(_nproc,0)`, `disps(_nproc,0)` and, for `i` from `0` to `_nproc-1`,
`allsizes[i] = nsend_all[i] * datasize; if(i > 0) disps[i] = disps[i-1]+allsizes[i-1];`.
The result is the pair `(allsizes, disps)`.  This is what the `int` cells hold while the
byte sizes and their prefix sums fit an `int`; `Gatherv_tables_int32` is the loop on the
cells themselves. -/
def Gatherv_tables (_nproc : Nat) (nsend_all : List Int) (datasize : Int) :
    List Int × List Int :=
  (List.range _nproc).foldl
    (fun st i =>
      let allsizes := st.1.set i (nsend_all.getD i 0 * datasize)
      let disps :=
        if i > 0 then st.2.set i (st.2.getD (i - 1) 0 + allsizes.getD (i - 1) 0) else st.2
      (allsizes, disps))
    (List.replicate _nproc 0, List.replicate _nproc 0)

/-- The loop of `Scatterv` (lines 389-395) on mathematical integers:
`allsizes(_nproc,0)`, `disps(_nproc,0)` and, for `i` from `0` to `_nproc-1`,
`allsizes[i] = sendcounts[i] * datasize; if(i > 0) disps[i] = disps[i-1]+allsizes[i-1];`.
This is what the `int` cells hold while the byte sizes and their prefix sums fit an
`int`; `Scatterv_tables_int32` is the loop on the cells themselves. -/
def Scatterv_tables (_nproc : Nat) (sendcounts : List Int) (datasize : Int) :
    List Int × List Int :=
  (List.range _nproc).foldl
    (fun st i =>
      let allsizes := st.1.set i (sendcounts.getD i 0 * datasize)
      let disps :=
        if i > 0 then st.2.set i (st.2.getD (i - 1) 0 + allsizes.getD (i - 1) 0) else st.2
      (allsizes, disps))
    (List.replicate _nproc 0, List.replicate _nproc 0)

/-- The loop of `Gatherv` (lines 353-354, 361-365) with the cells spelled out: `allsizes`
and `disps` are `std::vector<int>` and `datasize` is an `int`, so every value stored is
the 32-bit reading of the expression assigned,
`allsizes[i] = nsend_all[i] * datasize; if(i > 0) disps[i] = disps[i-1]+allsizes[i-1];`.
The result is the pair `(allsizes, disps)`. -/
def Gatherv_tables_int32 (_nproc : Nat) (nsend_all : List Int) (datasize : Int) :
    List Int × List Int :=
  (List.range _nproc).foldl
    (fun st i =>
      let allsizes := st.1.set i (toInt32 (nsend_all.getD i 0 * datasize))
      let disps :=
        if i > 0 then
          st.2.set i (toInt32 (st.2.getD (i - 1) 0 + allsizes.getD (i - 1) 0))
        else st.2
      (allsizes, disps))
    (List.replicate _nproc 0, List.replicate _nproc 0)

/-- The loop of `Scatterv` (lines 389-395) with the cells spelled out: `allsizes` and
`disps` are `std::vector<int>` and `datasize` is an `int`, so every value stored is the
32-bit reading of the expression assigned,
`allsizes[i] = sendcounts[i] * datasize; if(i > 0) disps[i] = disps[i-1]+allsizes[i-1];`. -/
def Scatterv_tables_int32 (_nproc : Nat) (sendcounts : List Int) (datasize : Int) :
    List Int × List Int :=
  (List.range _nproc).foldl
    (fun st i =>
      let allsizes := st.1.set i (toInt32 (sendcounts.getD i 0 * datasize))
      let disps :=
        if i > 0 then
          st.2.set i (toInt32 (st.2.getD (i - 1) 0 + allsizes.getD (i - 1) 0))
        else st.2
      (allsizes, disps))
    (List.replicate _nproc 0, List.replicate _nproc 0)

/-- Byte size of the contributions of the ranks below `i`: the prefix sum of
`count[j] * datasize`. -/
def prefixBytes (c : List Int) (datasize : Int) (i : Nat) : Int :=
  ∑ j in Finset.range i, c.getD j 0 * datasize

/-! ## The transport (MPI primitives, external to the repository) -/

/-- The status code of a transport call that succeeded. -/
def MPI_SUCCESS : Int := 0

/-- Value of `sizeof(int)`, the element size of a `std::vector<int>`. -/
def sizeof_int : Nat := 4

/-- Transport call `MPI_Bcast(buffer, count, datatype, root, comm)`: the first `count` units of the
root's buffer are stored at the start of the buffer of every other rank.
`status rank` is the code the call returns at `rank`; a rank whose call failed
keeps its buffer. -/
def MPI_Bcast {α : Type} (status : Nat → Int) (cell : Nat) (root : Nat) (count : Nat → Int)
    (buffer : Nat → List α) : Nat → List α :=
  fun rank =>
    if rank = root ∨ status rank ≠ MPI_SUCCESS then buffer rank
    else writeAt (buffer rank) 0
      (((buffer root).take (cells cell (count root))).take (cells cell (count rank)))

/-- Storing, for each rank `i` below `nproc` in ascending order, the message `msg i` at
cell `off i` of the receive buffer. -/
def placeAll {α : Type} (nproc : Nat) (off : Nat → Nat) (msg : Nat → List α)
    (recvbuf : List α) : List α :=
  (List.range nproc).foldl (fun b i => writeAt b (off i) (msg i)) recvbuf

/-- Transport call `MPI_Allgather(sendbuf, sendcount, CHAR, recvbuf, recvcount, CHAR, comm)`: every rank
receives the block of rank `i` at offset `i * recvcount`. -/
def MPI_Allgather {α : Type} (cell nproc : Nat) (sendbuf : Nat → List α)
    (sendcount : Nat → Int) (recvbuf : Nat → List α) (recvcount : Nat → Int) :
    Nat → List α :=
  fun rank =>
    placeAll nproc (fun i => i * cells cell (recvcount rank))
      (fun i => ((sendbuf i).take (cells cell (sendcount i))).take (cells cell (recvcount rank)))
      (recvbuf rank)

/-- Transport call `MPI_Gather(sendbuf, sendcount, CHAR, recvbuf, recvcount, CHAR, root, comm)`: as
`MPI_Allgather`, but only the root receives; the receive arguments of the other
ranks are ignored. -/
def MPI_Gather {α : Type} (cell nproc : Nat) (sendbuf : Nat → List α)
    (sendcount : Nat → Int) (recvbuf : Nat → List α) (recvcount : Nat → Int) (root : Nat) :
    Nat → List α :=
  fun rank =>
    if rank = root then
      placeAll nproc (fun i => i * cells cell (recvcount rank))
        (fun i => ((sendbuf i).take (cells cell (sendcount i))).take (cells cell (recvcount rank)))
        (recvbuf rank)
    else recvbuf rank

/-- Transport call `MPI_Gatherv(sendbuf, sendcount, CHAR, recvbuf, recvcounts, displs, CHAR, root, comm)`:
the root stores the block of rank `i` at displacement `displs[i]`, at most
`recvcounts[i]` units of it; `recvcounts` and `displs` are read at the root only. -/
def MPI_Gatherv {α : Type} (cell nproc : Nat) (sendbuf : Nat → List α)
    (sendcount : Nat → Int) (recvbuf : Nat → List α) (recvcounts displs : Nat → List Int)
    (root : Nat) : Nat → List α :=
  fun rank =>
    if rank = root then
      placeAll nproc (fun i => cells cell ((displs rank).getD i 0))
        (fun i => ((sendbuf i).take (cells cell (sendcount i))).take
          (cells cell ((recvcounts rank).getD i 0)))
        (recvbuf rank)
    else recvbuf rank

/-- Transport call `MPI_Allgatherv(sendbuf, sendcount, CHAR, recvbuf, recvcounts, displs, CHAR, comm)`:
every rank stores the block of rank `i` at its displacement `displs[i]`. -/
def MPI_Allgatherv {α : Type} (cell nproc : Nat) (sendbuf : Nat → List α)
    (sendcount : Nat → Int) (recvbuf : Nat → List α) (recvcounts displs : Nat → List Int) :
    Nat → List α :=
  fun rank =>
    placeAll nproc (fun i => cells cell ((displs rank).getD i 0))
      (fun i => ((sendbuf i).take (cells cell (sendcount i))).take
        (cells cell ((recvcounts rank).getD i 0)))
      (recvbuf rank)

/-- Transport call `MPI_Scatterv(sendbuf, sendcounts, displs, CHAR, recvbuf, recvcount, CHAR, root, comm)`:
rank `i` receives, at the start of its buffer, the `sendcounts[i]` units of the
root's send buffer found at displacement `displs[i]`, at most `recvcount` of them;
`sendbuf`, `sendcounts` and `displs` are read at the root only. -/
def MPI_Scatterv {α : Type} (cell : Nat) (sendbuf : Nat → List α)
    (sendcounts displs : Nat → List Int) (recvbuf : Nat → List α) (recvcount : Nat → Int)
    (root : Nat) : Nat → List α :=
  fun rank =>
    writeAt (recvbuf rank) 0
      ((readAt (sendbuf root) (cells cell ((displs root).getD rank 0))
          (cells cell ((sendcounts root).getD rank 0))).take (cells cell (recvcount rank)))

/-- The substrate-native element types the reductions can be asked for. -/
inductive MPI_Datatype where
  | MPI_DOUBLE | MPI_FLOAT | MPI_INT | MPI_UNSIGNED | MPI_UNSIGNED_LONG | MPI_CHAR
  | MPI_UNSIGNED_CHAR
  deriving DecidableEq

/-- The substrate-native reduction operators. -/
inductive MPI_Op where
  | MPI_MAX | MPI_MIN | MPI_SUM | MPI_PROD | MPI_MINLOC | MPI_MAXLOC
  deriving DecidableEq

/-- The binary operation a native operator performs on two `int` values read as
mathematical integers; the location operators work on value-index pairs and are not
defined on plain `int`.  `MPI_Op.onInt32` is the operation on the 32-bit cells. -/
def MPI_Op.onInt : MPI_Op → Option (Int → Int → Int)
  | .MPI_MAX => some max
  | .MPI_MIN => some min
  | .MPI_SUM => some (fun a b => a + b)
  | .MPI_PROD => some (fun a b => a * b)
  | .MPI_MINLOC => none
  | .MPI_MAXLOC => none

/-- The value `x 0 op x 1 op ... op x (nproc-1)` combined in rank order. -/
def reduceRanks (op : Int → Int → Int) (nproc : Nat) (x : Nat → Int) : Int :=
  (List.range' 1 (nproc - 1)).foldl (fun acc i => op acc (x i)) (x 0)

/-- Transport call `MPI_Allreduce(sendbuf, recvbuf, count, datatype, op, comm)` on buffers of `int`
read as mathematical integers:
element `j` of every rank's receive buffer, for `j < count`, becomes the
combination over all ranks of element `j` of the send buffers.  The call is
an error (`none`) when the datatype is not the one of the buffers or the operator
is not defined on it. -/
def MPI_Allreduce (nproc : Nat) (sendbuf recvbuf : Nat → List Int) (count : Nat → Int)
    (datatype : MPI_Datatype) (op : MPI_Op) : Option (Nat → List Int) :=
  if datatype = MPI_Datatype.MPI_INT then
    (op.onInt).map fun f rank =>
      writeAt (recvbuf rank) 0
        ((List.range (count rank).toNat).map fun j =>
          reduceRanks f nproc (fun i => (sendbuf i).getD j 0))
  else none

/-- The binary operation a native operator performs on two values of `MPI_INT`, which are
32-bit `int` cells: the sum and the product are the 32-bit readings of the exact
results; the location operators are not defined on plain `int`. -/
def MPI_Op.onInt32 : MPI_Op → Option (Int → Int → Int)
  | .MPI_MAX => some max
  | .MPI_MIN => some min
  | .MPI_SUM => some (fun a b => toInt32 (a + b))
  | .MPI_PROD => some (fun a b => toInt32 (a * b))
  | .MPI_MINLOC => none
  | .MPI_MAXLOC => none

/-- Transport call `MPI_Allreduce(sendbuf, recvbuf, count, datatype, op, comm)` on buffers of `int`
with the 32-bit cells spelled out: element `j` of every rank's receive buffer, for
`j < count`, becomes the combination over all ranks, by the operation on `MPI_INT`, of
element `j` of the send buffers.  The call is an error (`none`) when the datatype is not
the one of the buffers or the operator is not defined on it. -/
def MPI_Allreduce_int32 (nproc : Nat) (sendbuf recvbuf : Nat → List Int) (count : Nat → Int)
    (datatype : MPI_Datatype) (op : MPI_Op) : Option (Nat → List Int) :=
  if datatype = MPI_Datatype.MPI_INT then
    (op.onInt32).map fun f rank =>
      writeAt (recvbuf rank) 0
        ((List.range (count rank).toNat).map fun j =>
          reduceRanks f nproc (fun i => (sendbuf i).getD j 0))
  else none

/-! ## Member functions of `CommunicatorObject` -/

/-- Modelled from the spec: `ResolveDataType` is declared at COMM.H line 84 and defined
in the absent COMM.C; the spec says the datatype tag (double, float, int, unsigned
int, size-width integer, signed/unsigned byte) is resolved to the substrate-native
code before dispatch. -/
def ResolveDataType : DataTypes → MPI_Datatype
  | .DTDOUBLE => .MPI_DOUBLE
  | .DTFLOAT => .MPI_FLOAT
  | .DTINT => .MPI_INT
  | .DTUINT => .MPI_UNSIGNED
  | .DTSIZET => .MPI_UNSIGNED_LONG
  | .DTCHAR => .MPI_CHAR
  | .DTUCHAR => .MPI_UNSIGNED_CHAR
  | .DTBYTE => .MPI_CHAR
  | .DTUBYTE => .MPI_UNSIGNED_CHAR

/-- Modelled from the spec: `ResolveOp` is declared at COMM.H line 85 and defined in
the absent COMM.C; the spec says the operator tag (max, min, sum, product,
min-with-location, max-with-location) is resolved to the substrate-native code. -/
def ResolveOp : Ops → MPI_Op
  | .MAXOP => .MPI_MAX
  | .MINOP => .MPI_MIN
  | .SUMOP => .MPI_SUM
  | .PRODOP => .MPI_PROD
  | .MINLOCOP => .MPI_MINLOC
  | .MAXLOCOP => .MPI_MAXLOC

/-- What one rank holds when `BroadCast(std::vector<DataType>&,int)` returns: the
vector `buf` and the member `_rc`, which is also the value returned. -/
structure BroadCastResult (α : Type) where
  buf : List α
  _rc : Int

/-- Member function `BroadCast(std::vector<DataType> &buf,int root_rank)`, COMM.H lines 171-181.
`rc1 rank` and `rc2 rank` are the codes the first and the second `MPI_Bcast` return
at `rank`. -/
def BroadCast {α : Type} [Inhabited α] (sizeofdata : Nat) (root_rank : Nat)
    (rc1 rc2 : Nat → Int) (buf : Nat → List α) : Nat → BroadCastResult α :=
  -- int bufsize = buf.size();
  let bufsize : Nat → List Int := fun _rank => [((buf _rank).length : Int)]
  -- _rc = MPI_Bcast(&bufsize,1,MPI_INT,root_rank,_comm);
  let _rc := rc1
  let bufsize := MPI_Bcast rc1 1 root_rank (fun _ => 1) bufsize
  -- if(_rank != root_rank) buf.resize(bufsize);
  let buf := fun _rank =>
    if _rank ≠ root_rank then resize (buf _rank) ((bufsize _rank).headD 0).toNat default
    else buf _rank
  -- _rc = MPI_Bcast(&buf[0],buf.size()*sizeofdata,MPI_CHAR,root_rank,_comm);
  let _rc := rc2
  let buf := MPI_Bcast rc2 sizeofdata root_rank
    (fun _rank => ((buf _rank).length : Int) * (sizeofdata : Int)) buf
  -- return(_rc);
  fun _rank => { buf := buf _rank, _rc := _rc _rank }

/-- Member function `AllReduce(DataType &send,DataType &recv,dt,op)` at `DataType = int`, COMM.H lines
227-235, with the `int` values read as mathematical integers; the result is `recv`.
The function returns only when the transport call succeeded (`assert(_rc == 0)`).
This is the reading under which the collectives reduce their counts; it is what the
32-bit cells hold while the result fits an `int`, and `AllReduce_int32` is the function on
the cells themselves. -/
def AllReduce (_nproc : Nat) (send recv : Nat → Int) (dt : DataTypes) (op : Ops) :
    Option (Nat → Int) :=
  -- _rc = MPI_Allreduce(&send,&recv,1,ResolveDataType(dt),ResolveOp(op),_comm);
  (MPI_Allreduce _nproc (fun _rank => [send _rank]) (fun _rank => [recv _rank]) (fun _ => 1)
    (ResolveDataType dt) (ResolveOp op)).map fun recv _rank => (recv _rank).headD 0

/-- Member function `AllReduce(DataType &send,DataType &recv,dt,op)` at `DataType = int`, COMM.H lines
227-235, with `send` and `recv` as the 32-bit `int` cells they are; the result is `recv`.
The function returns only when the transport call succeeded (`assert(_rc == 0)`). -/
def AllReduce_int32 (_nproc : Nat) (send recv : Nat → Int) (dt : DataTypes) (op : Ops) :
    Option (Nat → Int) :=
  -- _rc = MPI_Allreduce(&send,&recv,1,ResolveDataType(dt),ResolveOp(op),_comm);
  (MPI_Allreduce_int32 _nproc (fun _rank => [send _rank]) (fun _rank => [recv _rank])
    (fun _ => 1) (ResolveDataType dt) (ResolveOp op)).map fun recv _rank => (recv _rank).headD 0

/-- Member function `AllReduce(std::vector<DataType> &send,std::vector<DataType> &recv,dt,op)` at
`DataType = int`, COMM.H lines 213-223, with the elements of `send` and `recv` as the
32-bit `int` cells they are; the result is `recv`. -/
def AllReduce_vector_int32 (_nproc : Nat) (send recv : Nat → List Int) (dt : DataTypes)
    (op : Ops) : Option (Nat → List Int) :=
  -- int count = send.size();
  let count : Nat → Int := fun _rank => ((send _rank).length : Int)
  -- recv.resize(count);
  let recv := fun _rank => resize (recv _rank) (count _rank).toNat 0
  -- _rc = MPI_Allreduce(&send[0],&recv[0],count,ResolveDataType(dt),ResolveOp(op),_comm);
  MPI_Allreduce_int32 _nproc send recv count (ResolveDataType dt) (ResolveOp op)

/-- Member function `AllGather(DataType &sendval,std::vector<DataType> &recvvec)`, COMM.H lines 266-275;
the result is `recvvec`. -/
def AllGather {α : Type} [Inhabited α] (messagesize _nproc : Nat) (sendval : Nat → α)
    (recvvec : Nat → List α) : Nat → List α :=
  -- recvvec.resize(_nproc);
  let recvvec := fun _rank => resize (recvvec _rank) _nproc default
  -- _rc = MPI_Allgather(&sendval,messagesize,MPI_CHAR,&recvvec[0],messagesize,MPI_CHAR,_comm);
  MPI_Allgather messagesize _nproc (fun _rank => [sendval _rank]) (fun _ => (messagesize : Int))
    recvvec (fun _ => (messagesize : Int))

/-- Member function `Gather(DataType &sendval,std::vector<DataType> &recvvec,int root)`, COMM.H lines
306-318; the result is `recvvec`.  `this->Rank()` and `this->Size()` are the rank and
the group size. -/
def Gather {α : Type} [Inhabited α] (messagesize _nproc : Nat) (sendval : Nat → α)
    (recvvec : Nat → List α) (root : Nat) : Nat → List α :=
  -- if(this->Rank() == root) recvvec.resize(this->Size());
  let recvvec := fun _rank =>
    if _rank = root then resize (recvvec _rank) _nproc default else recvvec _rank
  -- _rc = MPI_Gather(&sendval,messagesize,MPI_CHAR,&recvvec[0],messagesize,MPI_CHAR,root,_comm);
  MPI_Gather messagesize _nproc (fun _rank => [sendval _rank]) (fun _ => (messagesize : Int))
    recvvec (fun _ => (messagesize : Int)) root

/-- What `Gatherv` leaves at the ranks: the receive vectors and the count tables. -/
structure GathervResult (α : Type) where
  recvvec : Nat → List α
  nsend_all : Nat → List Int

/-- Lines 351-370 of `Gatherv`, after the count table has been settled. -/
def Gatherv_transfer {α : Type} [Inhabited α] (datasize _nproc : Nat)
    (sendvec recvvec : Nat → List α) (nsend_all : Nat → List Int) (root : Nat) :
    GathervResult α :=
  -- for(int i = 0;i < _nproc;i++) nrecv += nsend_all[i];
  let nrecv : Nat → Int := fun _rank =>
    (List.range _nproc).foldl (fun acc i => acc + (nsend_all _rank).getD i 0) 0
  -- recvvec.resize(nrecv);
  let recvvec := fun _rank => resize (recvvec _rank) (nrecv _rank).toNat default
  -- std::vector<int> allsizes(_nproc,0); std::vector<int> disps(_nproc,0); for(...){...}
  let allsizes := fun _rank => (Gatherv_tables _nproc (nsend_all _rank) (datasize : Int)).1
  let disps := fun _rank => (Gatherv_tables _nproc (nsend_all _rank) (datasize : Int)).2
  -- _rc = MPI_Gatherv(&sendvec[0],allsizes[_rank],MPI_CHAR,
  --                   &recvvec[0],&allsizes[0],&disps[0],MPI_CHAR,root,_comm);
  let recvvec := MPI_Gatherv datasize _nproc sendvec (fun _rank => (allsizes _rank).getD _rank 0)
    recvvec allsizes disps root
  { recvvec := recvvec, nsend_all := nsend_all }

/-- Member function `Gatherv(sendvec,recvvec,nsend_all,nsend,root)`, COMM.H lines 338-373.  Only the
ranks whose count table is empty enter the inner `Gather`; it is a collective, so
when some ranks enter it and others do not the group does not come back (`none`). -/
def Gatherv {α : Type} [Inhabited α] (datasize _nproc : Nat)
    (sendvec recvvec : Nat → List α) (nsend_all : Nat → List Int) (nsend : Nat → Int)
    (root : Nat) : Option (GathervResult α) :=
  -- if(nsend == 0) nsend = sendvec.size();
  let nsend : Nat → Int := fun _rank =>
    if nsend _rank = 0 then ((sendvec _rank).length : Int) else nsend _rank
  -- if(nsend_all.empty()){
  if (List.range _nproc).all (fun _rank => (nsend_all _rank).isEmpty) then
    -- nsend_all.resize(_nproc); nsend_all[_rank] = nsend;
    let nsend_all := fun _rank => (resize (nsend_all _rank) _nproc 0).set _rank (nsend _rank)
    -- this->Gather(nsend,nsend_all,root); }
    let nsend_all := Gather sizeof_int _nproc nsend nsend_all root
    some (Gatherv_transfer datasize _nproc sendvec recvvec nsend_all root)
  else if (List.range _nproc).all (fun _rank => !(nsend_all _rank).isEmpty) then
    some (Gatherv_transfer datasize _nproc sendvec recvvec nsend_all root)
  else none

/-- What `Scatterv` leaves at the ranks: the count tables and the receive vectors. -/
structure ScattervResult (α : Type) where
  sendcounts : Nat → List Int
  recvvec : Nat → List α

/-- Member function `Scatterv(sendvec,sendcounts,recvvec,root)`, COMM.H lines 376-402.  The inner
`BroadCast` of the count table is taken with a transport that succeeds. -/
def Scatterv {α : Type} [Inhabited α] (datasize _nproc : Nat)
    (sendvec : Nat → List α) (sendcounts : Nat → List Int) (recvvec : Nat → List α)
    (root : Nat) : ScattervResult α :=
  -- if (sendcounts.size() == 0) sendcounts.resize(_nproc);
  let sendcounts := fun _rank =>
    if (sendcounts _rank).length = 0 then resize (sendcounts _rank) _nproc 0
    else sendcounts _rank
  -- this->BroadCast(sendcounts, root);
  let sendcounts := fun _rank =>
    (BroadCast sizeof_int root (fun _ => MPI_SUCCESS) (fun _ => MPI_SUCCESS) sendcounts _rank).buf
  -- if (recvvec.size() == 0) recvvec.resize(sendcounts[_rank]);
  let recvvec := fun _rank =>
    if (recvvec _rank).length = 0 then
      resize (recvvec _rank) ((sendcounts _rank).getD _rank 0).toNat default
    else recvvec _rank
  -- std::vector<int> allsizes(_nproc,0); std::vector<int> disps(_nproc,0); for(...){...}
  let allsizes := fun _rank => (Scatterv_tables _nproc (sendcounts _rank) (datasize : Int)).1
  let disps := fun _rank => (Scatterv_tables _nproc (sendcounts _rank) (datasize : Int)).2
  -- _rc = MPI_Scatterv(&sendvec[0],&allsizes[0],&disps[0],MPI_CHAR,
  --                    &recvvec[0],allsizes[_rank],MPI_CHAR,root,_comm);
  let recvvec := MPI_Scatterv datasize sendvec allsizes disps recvvec
    (fun _rank => (allsizes _rank).getD _rank 0) root
  { sendcounts := sendcounts, recvvec := recvvec }

/-- Modelled from the spec: `_AllGatherv(sendbuf,mysendcnt,datasize,recvbuf)` is declared
at COMM.H line 115 and defined in the absent COMM.C.  The spec gives the protocol of
the variable-size collection: (1) each rank's local count is exchanged via a
fixed-size `AllGather`, (2) byte offsets per rank are computed as a prefix sum of
`count[i] × element_size`, (3) the variable-length transport primitive moves each
rank's contribution into its computed slot in the destination sequence, preserving
rank order. -/
def _AllGatherv {α : Type} (_nproc : Nat) (sendbuf : Nat → List α) (mysendcnt : Nat → Int)
    (datasize : Nat) (recvbuf : Nat → List α) : Nat → List α :=
  -- (1) the counts of all ranks, at every rank
  let counts := AllGather sizeof_int _nproc mysendcnt (fun _ => [])
  -- (2) byte sizes and byte offsets
  let allsizes := fun _rank =>
    (List.range _nproc).map fun i => (counts _rank).getD i 0 * (datasize : Int)
  let disps := fun _rank =>
    (List.range _nproc).map fun i => prefixBytes (counts _rank) (datasize : Int) i
  -- (3) the variable-length transfer
  MPI_Allgatherv datasize _nproc sendbuf (fun _rank => mysendcnt _rank * (datasize : Int))
    recvbuf allsizes disps

/-- Member function `AllGatherv(sendvec,recvvec)`, COMM.H lines 292-304; the result is `recvvec`. -/
def AllGatherv {α : Type} [Inhabited α] (datasize _nproc : Nat)
    (sendvec recvvec : Nat → List α) : Option (Nat → List α) :=
  -- int mysendcnt = sendvec.size(); int totalcnt = 0;
  let mysendcnt : Nat → Int := fun _rank => ((sendvec _rank).length : Int)
  let totalcnt : Nat → Int := fun _ => 0
  -- std::vector<int> nsend_all; nsend_all.resize(_nproc,0);
  let nsend_all : Nat → List Int := fun _ => resize [] _nproc 0
  -- this->AllGather(mysendcnt,nsend_all);
  let _nsend_all := AllGather sizeof_int _nproc mysendcnt nsend_all
  -- this->AllReduce(mysendcnt,totalcnt,DTINT,SUMOP);
  (AllReduce _nproc mysendcnt totalcnt DataTypes.DTINT Ops.SUMOP).map fun totalcnt =>
    -- recvvec.resize(totalcnt);
    let recvvec := fun _rank => resize (recvvec _rank) (totalcnt _rank).toNat default
    -- return(_AllGatherv(&sendvec[0],mysendcnt,datasize,&recvvec[0]));
    _AllGatherv _nproc sendvec mysendcnt datasize recvvec

/-- Library call `std::sort(first,last)` with `operator<` of a totally ordered type: the ascending
rearrangement of the range. -/
def sort {α : Type} [LinearOrder α] (v : List α) : List α :=
  v.insertionSort (fun a b => a ≤ b)

/-- The loop of `std::unique`: `last` is the element kept most recently; an element
equal to it is skipped, any other element is kept. -/
def uniqueFrom {α : Type} [DecidableEq α] (last : α) : List α → List α
  | [] => []
  | x :: rest => if last = x then uniqueFrom last rest else x :: uniqueFrom x rest

/-- Library call `std::unique(first,last)`: the range up to the returned iterator, which keeps the
first element of every run of equal neighbours. -/
def unique {α : Type} [DecidableEq α] : List α → List α
  | [] => []
  | x :: rest => x :: uniqueFrom x rest

/-- Member function `Union(input_data,output_data)`, COMM.H lines 611-621; the result is
`output_data`. -/
def Union {α : Type} [Inhabited α] [LinearOrder α] (datasize _nproc : Nat)
    (input_data output_data : Nat → List α) : Option (Nat → List α) :=
  -- std::vector< T > all_items; int err = AllGatherv< T >(input_data,all_items);
  (AllGatherv datasize _nproc input_data (fun _ => [])).map fun all_items =>
    -- std::sort(all_items.begin(),all_items.end());
    let all_items := fun _rank => sort (all_items _rank)
    -- ui = std::unique(all_items.begin(),all_items.end());
    let kept := fun _rank => unique (all_items _rank)
    -- output_data.resize(ui - all_items.begin());
    let output_data := fun _rank => resize (output_data _rank) (kept _rank).length default
    -- std::copy(all_items.begin(),ui,output_data.begin());
    fun _rank => writeAt (output_data _rank) 0 (kept _rank)

/-! ## Typed point-to-point overloads (COMM.H lines 128-162) -/

/-- Member function `ASend(std::vector<DataType> &sendbuf,remote_rank,tag)`, COMM.H lines
128-135.  The primitive `_ASend(buf,sendsize,remote_rank,tag)` is declared at line 111
and defined in the absent COMM.C; it is a parameter, acting on a state `σ` (the request
ledger) and returning its `int` result.  `sizeofDataType` is `sizeof(DataType)`. -/
def ASend {α σ : Type} (_ASend : List α → Int → Nat → Int → σ → σ × Int)
    (sizeofDataType : Nat) (sendbuf : List α) (remote_rank : Nat) (tag : Int) (st : σ) :
    σ × Int :=
  -- int sizeofdata = sizeof(DataType);
  let sizeofdata := toInt32 (sizeofDataType : Int)
  -- int sendcnt = sendbuf.size();
  let sendcnt := toInt32 (sendbuf.length : Int)
  -- return (_ASend(&sendbuf[0],sizeofdata*sendcnt,remote_rank,tag));
  _ASend sendbuf (toInt32 (sizeofdata * sendcnt)) remote_rank tag st

/-- Member function `SetSend(std::vector<DataType> &sendbuf,remote_rank,tag)`, COMM.H
lines 137-144, over the primitive `_SetSend` (line 112). -/
def SetSend {α σ : Type} (_SetSend : List α → Int → Nat → Int → σ → σ × Int)
    (sizeofDataType : Nat) (sendbuf : List α) (remote_rank : Nat) (tag : Int) (st : σ) :
    σ × Int :=
  -- int sizeofdata = sizeof(DataType);
  let sizeofdata := toInt32 (sizeofDataType : Int)
  -- int sendcnt = sendbuf.size();
  let sendcnt := toInt32 (sendbuf.length : Int)
  -- return(_SetSend(&sendbuf[0],sendcnt*sizeofdata,remote_rank,tag));
  _SetSend sendbuf (toInt32 (sendcnt * sizeofdata)) remote_rank tag st

/-- Member function `SetRecv(std::vector<DataType> &recvbuf,remote_rank,tag)`, COMM.H
lines 146-153, over the primitive `_SetRecv` (line 114). -/
def SetRecv {α σ : Type} (_SetRecv : List α → Int → Nat → Int → σ → σ × Int)
    (sizeofDataType : Nat) (recvbuf : List α) (remote_rank : Nat) (tag : Int) (st : σ) :
    σ × Int :=
  -- int sizeofdata = sizeof(DataType);
  let sizeofdata := toInt32 (sizeofDataType : Int)
  -- int recvcnt = recvbuf.size();
  let recvcnt := toInt32 (recvbuf.length : Int)
  -- return(_SetRecv(&recvbuf[0],recvcnt*sizeofdata,remote_rank,tag));
  _SetRecv recvbuf (toInt32 (recvcnt * sizeofdata)) remote_rank tag st

/-- Member function `ARecv(std::vector<DataType> &recvbuf,remote_rank,tag)`, COMM.H lines
155-162, over the primitive `_ARecv` (line 113). -/
def ARecv {α σ : Type} (_ARecv : List α → Int → Nat → Int → σ → σ × Int)
    (sizeofDataType : Nat) (recvbuf : List α) (remote_rank : Nat) (tag : Int) (st : σ) :
    σ × Int :=
  -- int sizeofdata = sizeof(DataType);
  let sizeofdata := toInt32 (sizeofDataType : Int)
  -- int recvcnt = recvbuf.size();
  let recvcnt := toInt32 (recvbuf.length : Int)
  -- return(_ARecv(&recvbuf[0],sizeofdata*recvcnt,remote_rank,tag));
  _ARecv recvbuf (toInt32 (sizeofdata * recvcnt)) remote_rank tag st

/-- A primitive that does nothing but return the byte size it is handed. -/
def reportSize (_buf : List Nat) (size : Int) (_remote_rank : Nat) (_tag : Int) (st : Unit) :
    Unit × Int :=
  (st, size)

/-! ## MobileObject (COMM.H lines 27-54) -/

/-- The data members of `MobileObject`: the buffer pointer (`0` is `NULL`), the ownership
flag and the byte size. -/
structure MobileObject where
  _buf : Nat
  _mine : Bool
  _bsize : Int
  deriving DecidableEq

/-- Member function `MobileObject::DestroyBuffer()`, COMM.H lines 42-49.  `freed` is the
list of the addresses handed to `delete []` so far. -/
def MobileObject.DestroyBuffer (o : MobileObject) (freed : List Nat) :
    MobileObject × List Nat :=
  -- if(_buf && _mine) delete [] (char*)_buf;
  let freed := if o._buf ≠ 0 ∧ o._mine = true then freed ++ [o._buf] else freed
  -- _buf = NULL; _mine = false; _bsize = 0;
  ({ _buf := 0, _mine := false, _bsize := 0 }, freed)

/-- The destructor `~MobileObject()`, COMM.H lines 50-53: it runs `DestroyBuffer()`. -/
def MobileObject.destroy (o : MobileObject) (freed : List Nat) : MobileObject × List Nat :=
  o.DestroyBuffer freed

/-! ## Request ledger (COMM.H lines 73-76 and 92) -/

/-- The request ledger of `CommunicatorObject`: the pending send and receive requests
and their tags.  A request is known by its handle. -/
structure RequestLedger where
  _send_requests : List Nat
  _recv_requests : List Nat
  _send_tags : List Int
  _recv_tags : List Int
  deriving DecidableEq

/-- Member function `NOpenRequests()`, COMM.H line 92: the ledger after the call and the
value returned. -/
def NOpenRequests (c : RequestLedger) : RequestLedger × Int :=
  -- return(_send_requests.size() + _recv_requests.size());
  (c, ((c._send_requests.length + c._recv_requests.length : Nat) : Int))

/-! ## AllGatherv with a caller-side count table (COMM.H lines 277-290) -/

/-- The collective member functions the body of `AllGatherv` can enter. -/
inductive Collective where
  | AllGather | AllReduce | _AllGatherv
  deriving DecidableEq

/-- What `AllGatherv(sendvec,recvvec,nsend_all)` leaves at the ranks: the receive
vectors, the count tables, and the collectives its body entered, in order. -/
structure AllGathervResult (α : Type) where
  recvvec : Nat → List α
  nsend_all : Nat → List Int
  calls : List Collective

/-- Lines 287-289 of `AllGatherv(sendvec,recvvec,nsend_all)`, after the count table has
been settled. -/
def AllGatherv3_transfer {α : Type} [Inhabited α] (datasize _nproc : Nat)
    (sendvec recvvec : Nat → List α) (nsend_all : Nat → List Int) (calls : List Collective) :
    Option (AllGathervResult α) :=
  let mysendcnt : Nat → Int := fun _rank => ((sendvec _rank).length : Int)
  let totalcnt : Nat → Int := fun _ => 0
  -- this->AllReduce(mysendcnt,totalcnt,DTINT,SUMOP);
  (AllReduce _nproc mysendcnt totalcnt DataTypes.DTINT Ops.SUMOP).map fun totalcnt =>
    -- recvvec.resize(totalcnt);
    let recvvec := fun _rank => resize (recvvec _rank) (totalcnt _rank).toNat default
    -- return(_AllGatherv(&sendvec[0],mysendcnt,datasize,&recvvec[0]));
    { recvvec := _AllGatherv _nproc sendvec mysendcnt datasize recvvec,
      nsend_all := nsend_all,
      calls := calls ++ [Collective.AllReduce, Collective._AllGatherv] }

/-- Member function `AllGatherv(sendvec,recvvec,nsend_all)`, COMM.H lines 277-290.  Only
the ranks whose count table is empty enter the inner `AllGather`; it is a collective, so
when some ranks enter it and others do not the group does not come back (`none`). -/
def AllGatherv3 {α : Type} [Inhabited α] (datasize _nproc : Nat)
    (sendvec recvvec : Nat → List α) (nsend_all : Nat → List Int) :
    Option (AllGathervResult α) :=
  -- int mysendcnt = sendvec.size();
  let mysendcnt : Nat → Int := fun _rank => ((sendvec _rank).length : Int)
  -- if(nsend_all.empty()){
  if (List.range _nproc).all (fun _rank => (nsend_all _rank).isEmpty) then
    -- nsend_all.resize(_nproc,0);
    let nsend_all := fun _rank => resize (nsend_all _rank) _nproc 0
    -- this->AllGather(mysendcnt,nsend_all); }
    let nsend_all := AllGather sizeof_int _nproc mysendcnt nsend_all
    AllGatherv3_transfer datasize _nproc sendvec recvvec nsend_all [Collective.AllGather]
  else if (List.range _nproc).all (fun _rank => !(nsend_all _rank).isEmpty) then
    AllGatherv3_transfer datasize _nproc sendvec recvvec nsend_all []
  else none

/-! ## GatherMO of one unit per rank (COMM.H lines 448-466) -/

/-- What the native gather leaves at one rank: the send object, what it leaves in the
object a receive slot points to (given the slot's index and the object found there),
and its return code. -/
structure GatherMOEffect (α : Type) where
  sendval : α
  slot : Nat → α → α
  rc : Int

/-- What `GatherMO(sendval,recvvec,root)` leaves at the ranks: the send objects, the
receive vectors, the slot vectors `recv_v` handed to the native gather (a slot is the
index of the element of `recvvec` it points to), and `_rc`, the value returned. -/
structure GatherMOResult (α : Type) where
  sendval : Nat → α
  recvvec : Nat → List α
  recv_v : Nat → List Nat
  _rc : Nat → Int

/-- Member function `GatherMO(MOType &sendval,std::vector<MOType> &recvvec,int root)`,
COMM.H lines 448-466.  The native `_GatherMO(sPtr,rVec,sndcnt,root)` is declared at line
120 and defined in the absent COMM.C; it is a parameter: from the send objects and the
slot vectors of all ranks, the count, the root and a rank it gives what it leaves at
that rank.  It reaches the elements of `recvvec` through the slots only. -/
def GatherMO {α : Type} [Inhabited α]
    (_GatherMO : (Nat → α) → (Nat → List Nat) → Int → Nat → Nat → GatherMOEffect α)
    (_nproc : Nat) (sendval : Nat → α) (recvvec : Nat → List α) (root : Nat) :
    GatherMOResult α :=
  -- recvvec.resize(0);
  let recvvec := fun _rank => resize (recvvec _rank) 0 default
  -- std::vector<MobileObject *> recv_v; recv_v.resize(0);
  let recv_v : Nat → List Nat := fun _ => resize [] 0 0
  -- if(_rank == root){ recvvec.resize(_nproc); recv_v.resize(_nproc,NULL); ... }
  let recvvec := fun _rank =>
    if _rank = root then resize (recvvec _rank) _nproc default else recvvec _rank
  --   while(moci != recv_v.end()) *moci++ = dynamic_cast<MobileObject *>(&(*oi++));
  let recv_v := fun _rank =>
    if _rank = root then (List.range (resize (recv_v _rank) _nproc 0).length) else recv_v _rank
  -- _rc = this->_GatherMO(sendPtr,recv_v,1,root);
  let effect := _GatherMO sendval recv_v 1 root
  { sendval := fun _rank => (effect _rank).sendval,
    recvvec := fun _rank =>
      (recvvec _rank).enum.map fun p =>
        if p.1 ∈ recv_v _rank then (effect _rank).slot p.1 p.2 else p.2,
    recv_v := recv_v,
    _rc := fun _rank => (effect _rank).rc }

end Comm

/-! ## Text menu (src/include/Menu.H) -/

namespace Util

/-- The data members of `MenuObject`, Menu.H lines 244-253.  A `std::string` is the list
of its characters; `_menu_width` is a `strsize`. -/
structure MenuObject where
  _header : List Char
  _external_border : List Char
  _vertical_rule : List Char
  _horizontal_rule : List Char
  _field_separator : List Char
  _menu_width : Nat
  _column_length : Int
  _last_section : List Char
  _next_section : List Char
  _up_section : List Char

/-- The constructor `MenuObject()`, Menu.H lines 22-23. -/
def MenuObject.new : MenuObject :=
  { _header := [], _external_border := ['*'], _vertical_rule := ['|'],
    _horizontal_rule := ['-'], _field_separator := [' ', '=', ' '], _menu_width := 80,
    _column_length := 12, _last_section := [], _next_section := [], _up_section := [] }

/-- The settings the constructor gives: border `*`, vertical rule `|`, horizontal rule `-`,
field separator ` = `, width 80 and column length 12 (any header, any section names). -/
def MenuObject.hasDefaultSettings (m : MenuObject) : Prop :=
  m._external_border = ['*'] ∧ m._vertical_rule = ['|'] ∧ m._horizontal_rule = ['-']
    ∧ m._field_separator = [' ', '=', ' '] ∧ m._menu_width = 80 ∧ m._column_length = 12

/-- Member function `SetMenuWidth(unsigned int wid)`, Menu.H lines 237-239. -/
def MenuObject.SetMenuWidth (m : MenuObject) (wid : Nat) : MenuObject :=
  { m with _menu_width := (toUInt32 (wid : Int)).toNat }

/-- Member function `SetExternalBorder(eb)`, Menu.H lines 216-218. -/
def MenuObject.SetExternalBorder (m : MenuObject) (eb : List Char) : MenuObject :=
  { m with _external_border := eb }

/-- The characters `Ostr << std::setw(w) << s` appends: `s`, filled up with spaces to the
width `w` when it is shorter.  Where the source pads a text that can be shorter than the
width, the stream is left-adjusted (`std::ios::left`), so the fill follows the text. -/
def setw (w : Int) (s : List Char) : List Char :=
  s ++ List.replicate (w.toNat - s.length) ' '

/-- The loop of `hRule`, Menu.H lines 32-33:
`for(unsigned int npchar = 0;npchar < (menuspace+2);npchar+=hsize) Ostr << std::setw(hsize) << _horizontal_rule;`
run for at most `fuel` tests of the condition. -/
def hRuleLoop (bound hsize : Int) (rule : List Char) : Nat → Int → List Char → Option (List Char)
  | 0, _, _ => none
  | fuel + 1, npchar, out =>
    if npchar < bound then
      hRuleLoop bound hsize rule fuel (toUInt32 (npchar + hsize)) (out ++ setw hsize rule)
    else some out

/-- Member function `hRule()`, Menu.H lines 25-36; `none` when the loop does not end. -/
def MenuObject.hRule (m : MenuObject) : Option (List Char) :=
  -- strsize menuspace = _menu_width - _external_border.size()*2 - 2;
  let menuspace := toSize ((m._menu_width : Int) - (m._external_border.length : Int) * 2 - 2)
  -- int hsize = _horizontal_rule.size(); if(hsize == 0) hsize=1;
  let hsize := toInt32 (m._horizontal_rule.length : Int)
  let hsize := if hsize = 0 then 1 else hsize
  -- Ostr << _external_border; for(...) ...; Ostr << _external_border;
  (hRuleLoop (toSize (menuspace + 2)) hsize m._horizontal_rule
      ((toSize (menuspace + 2)).toNat + 1) 0 m._external_border).map
    fun out => out ++ m._external_border

/-- Member function `centerString(message)`, Menu.H lines 37-56.  The loop
`while(space_left--)` ends only from a count that is not negative; otherwise the call
does not return (`none`). -/
def MenuObject.centerString (m : MenuObject) (message : List Char) : Option (List Char) :=
  -- strsize border_size = _external_border.size() + 1;
  let border_size := toSize ((m._external_border.length : Int) + 1)
  -- strsize menuspace   = _menu_width-(border_size*2);
  let menuspace := toSize ((m._menu_width : Int) - border_size * 2)
  -- int nspaces = (menuspace-message.size())/2;
  let nspaces := toInt32 (toSize (menuspace - (message.length : Int)) / 2)
  -- Ostr << _external_border << " "; while(spaces++ < nspaces) Ostr << " ";
  let Ostr := m._external_border ++ [' '] ++ List.replicate nspaces.toNat ' '
  -- Ostr << message;
  let Ostr := Ostr ++ message
  -- int space_left = _menu_width - (Ostr.str().size() + 2);
  let space_left := toInt32 (toSize ((m._menu_width : Int) - ((Ostr.length : Int) + 2)))
  -- while(space_left--) Ostr << " ";
  if space_left < 0 then none
  else
    let Ostr := Ostr ++ List.replicate space_left.toNat ' '
    -- Ostr << " " << _external_border;
    some (Ostr ++ [' '] ++ m._external_border)

/-- The loop `while((_column_length*ncol) < npp) ncol++;` of `menuString`, Menu.H lines
69-70, run from `ncol` for at most `fuel` tests of the condition. -/
def ncolLoop (_column_length npp : Int) : Nat → Int → Option Int
  | 0, _ => none
  | fuel + 1, ncol =>
    if _column_length * ncol < npp then ncolLoop _column_length npp fuel (ncol + 1)
    else some ncol

/-- The column count of `menuString`: `int ncol = 1;` followed by the loop, with the fuel
the embedding gives it.  A loop that ends at all ends within it. -/
def columnCount (_column_length npp : Int) : Option Int :=
  ncolLoop _column_length npp (npp.toNat + 1) 1

/-- The loop over `npercol` of `menuString`, Menu.H lines 73-77, on the `k` entries still
to fill: `*npci = (npp < lines_per_col ? npp : lines_per_col); npp -= *npci++;`. -/
def npercolLoop (lines_per_col : Int) : Nat → Int → List Int
  | 0, _ => []
  | k + 1, npp =>
    (if npp < lines_per_col then npp else lines_per_col)
      :: npercolLoop lines_per_col k (npp - (if npp < lines_per_col then npp else lines_per_col))

/-- The per-column counts of `menuString`, Menu.H lines 71-77:
`lines_per_col = (npp + ncol)/ncol` and the vector `npercol(ncol,0)` after the loop. -/
def columnCounts (npp ncol : Int) : List Int :=
  npercolLoop ((npp + ncol).tdiv ncol) ncol.toNat npp

/-- The index of the parameter shown on line `line_count` in column `cc`, Menu.H lines
106-108: `param_index = line_count-1; for(ccount < cc) param_index += npercol[ccount];`.
The value stays below twice the parameter count, so it is taken without wrap-around. -/
def paramIndex (npercol : List Int) (line_count : Int) (cc : Nat) : Int :=
  (List.range cc).foldl (fun param_index ccount => param_index + npercol.getD ccount 0)
    (line_count - 1)

/-- The sizes `menuString` computes before printing, Menu.H lines 62-94. -/
structure MenuLayout where
  menuspace : Int
  ncol : Int
  npercol : List Int
  field_size : Int
  xtraspace : Int
  deriving DecidableEq

/-- Lines 62-94 of `menuString` for a section of `params_size` parameters; `none` when the
column loop does not end. -/
def menuLayout (m : MenuObject) (params_size : Nat) : Option MenuLayout :=
  -- strsize border_size = _external_border.size() + 1;
  let border_size := toSize ((m._external_border.length : Int) + 1)
  -- strsize vrule_size  = _vertical_rule.size() + 2;
  let vrule_size := toSize ((m._vertical_rule.length : Int) + 2)
  -- strsize menuspace   = _menu_width-(border_size*2);
  let menuspace := toSize ((m._menu_width : Int) - border_size * 2)
  -- int npp = params.size();
  let npp := toInt32 (params_size : Int)
  -- int ncol = 1; while((_column_length*ncol) < npp) ncol++;
  (columnCount m._column_length npp).map fun ncol =>
    -- int lines_per_col = (npp + ncol)/ncol; std::vector<int> npercol(ncol,0); while(...){...}
    let npercol := columnCounts npp ncol
    -- int rule_size   = vrule_size * (ncol - 1);
    let rule_size := toInt32 (toSize (vrule_size * (ncol - 1)))
    -- int button_size = 4;
    let button_size : Int := 4
    -- int field_separator_size = _field_separator.size();
    let field_separator_size := toInt32 (m._field_separator.length : Int)
    -- int column_size = (menuspace - rule_size)/ncol;
    let column_size := toInt32 (toSize (menuspace - rule_size) / toSize ncol)
    -- int field_space = column_size - button_size - field_separator_size;
    let field_space := column_size - button_size - field_separator_size
    -- unsigned int field_size  = field_space/2;
    let field_size := toUInt32 (field_space.tdiv 2)
    -- int total_size  = rule_size + (ncol * (button_size+(2*field_size)+field_separator_size));
    let total_size :=
      toInt32 (toUInt32 (rule_size + ncol * (button_size + 2 * field_size + field_separator_size)))
    -- int xtraspace   = (menuspace-total_size);
    let xtraspace := toInt32 (toSize (menuspace - total_size))
    -- int fieldspace  = xtraspace/(ncol*2);
    let fieldspace := xtraspace.tdiv (ncol * 2)
    -- if(fieldspace > 0){ field_size += fieldspace; xtraspace -= (fieldspace*ncol*2); }
    if fieldspace > 0 then
      { menuspace := menuspace, ncol := ncol, npercol := npercol,
        field_size := toUInt32 (field_size + fieldspace),
        xtraspace := xtraspace - fieldspace * ncol * 2 }
    else
      { menuspace := menuspace, ncol := ncol, npercol := npercol, field_size := field_size,
        xtraspace := xtraspace }

/-- Lines 114-116 (and 117-119) of `menuString`: a text longer than the field is cut to
`"*"` and its tail, `key = std::string("*") + key.substr(key.size() - field_size + 1)`.
Under the guard the position is the plain difference plus one; the call of `substr`
throws when the position is past the end (`none`). -/
def truncateField (field_size : Int) (s : List Char) : Option (List Char) :=
  if (s.length : Int) > field_size then
    let pos := (s.length : Int) - field_size + 1
    if pos > (s.length : Int) then none else some ('*' :: s.drop pos.toNat)
  else some s

/-- One cell of a menu line, Menu.H lines 106-130: what is appended to the stream for
column `cc` of line `line_count` when the space counter stands at `extraspace`. -/
def menuCell (m : MenuObject) (params : List (List Char × List Char)) (lay : MenuLayout)
    (line_count : Int) (cc : Nat) (extraspace : Int) : Option (List Char) :=
  let param_index := paramIndex lay.npercol line_count cc
  -- ((extraspace--) > 0 ? " " : "")
  let extra : List Char := if extraspace > 0 then [' '] else []
  -- ((cc == (ncol-1)) ? "" : (" " + _vertical_rule + " "))
  let rule : List Char :=
    if (cc : Int) = lay.ncol - 1 then [] else [' '] ++ m._vertical_rule ++ [' ']
  if param_index < (params.length : Int) then
    -- key = params[param_index].Key(); value = params[param_index].Value(); ...
    match truncateField lay.field_size (params.getD param_index.toNat ([], [])).1,
        truncateField lay.field_size (params.getD param_index.toNat ([], [])).2 with
    | some key, some value =>
      -- Ostr << std::setw(2) << left << param_index+1 << std::setw(2) << ") ";
      -- Ostr << std::setw(field_size) << left << key << std::setw(3) << " = "
      --      << std::setw(field_size) << value << ...
      some (setw 2 (Nat.toDigits 10 (toUInt32 (param_index + 1)).toNat) ++ setw 2 [')', ' ']
        ++ setw (toInt32 lay.field_size) key ++ setw 3 [' ', '=', ' ']
        ++ setw (toInt32 lay.field_size) value ++ extra ++ rule)
    | _, _ => none
  else
    -- Ostr << std::setw(4) << "";
    -- Ostr << std::setw(field_size) << "" << std::setw(3) << "" << std::setw(field_size) << "" ...
    some (setw 4 [] ++ setw (toInt32 lay.field_size) [] ++ setw 3 []
      ++ setw (toInt32 lay.field_size) [] ++ extra ++ rule)

/-- The loop over the columns, `for(int cc = 0;cc < ncol;cc++)`, Menu.H lines 105-131, from
column `cc` with `k` columns to go: the text appended and the space counter left. -/
def menuColumns (cell : Nat → Int → Option (List Char)) : Nat → Nat → Int → Option (List Char × Int)
  | _, 0, extraspace => some ([], extraspace)
  | cc, k + 1, extraspace =>
    match cell cc extraspace with
    | none => none
    | some text =>
      (menuColumns cell (cc + 1) k (extraspace - 1)).map fun rest => (text ++ rest.1, rest.2)

/-- One parameter line of `menuString`, Menu.H lines 104-134, with the `_external_border`
and the blank that open it (written at line 100 for the first line and at line 136 for
the others) and without the `std::endl` that closes it. -/
def menuLine (m : MenuObject) (params : List (List Char × List Char)) (lay : MenuLayout)
    (line_count : Int) : Option (List Char) :=
  -- int extraspace = xtraspace; for(int cc = 0;cc < ncol;cc++){ ... }
  (menuColumns (menuCell m params lay line_count) 0 lay.ncol.toNat lay.xtraspace).map
    fun cols =>
      -- while(extraspace-- > 0) Ostr << " ";
      -- Ostr << " " << _external_border << std::endl;
      m._external_border ++ [' '] ++ cols.1 ++ List.replicate cols.2.toNat ' ' ++ [' ']
        ++ m._external_border

/-- The results of a list of steps, when every one of them has a result. -/
def collect {α : Type} : List (Option α) → Option (List α)
  | [] => some []
  | none :: _ => none
  | some a :: rest => (collect rest).map fun r => a :: r

/-- The parameter lines of `menuString`, for `line_count` from `1` to `npercol[0]`,
Menu.H line 103. -/
def menuLines (m : MenuObject) (params : List (List Char × List Char)) (lay : MenuLayout) :
    Option (List (List Char)) :=
  collect ((List.range (lay.npercol.getD 0 0).toNat).map fun (k : Nat) =>
    menuLine m params lay ((k : Int) + 1))

/-- Member function `menuString(config,section)`, Menu.H lines 57-141, for a section whose
parameters are `params` (the keys and values of `config.Section(section)`): the menu
after the call and the string returned.  `std::endl` is the newline character. -/
def MenuObject.menuString (m : MenuObject) (params : List (List Char × List Char))
    (section_name : List Char) : Option (MenuObject × List Char) :=
  -- _last_section.assign(section);
  let m := { m with _last_section := section_name }
  (menuLayout m params.length).bind fun lay =>
  (m.centerString section_name).bind fun center =>
  m.hRule.bind fun rule =>
  (menuLines m params lay).map fun lines =>
    -- Ostr << _header << std::endl << centerString(section) << std::endl << hRule()
    --      << std::endl << _external_border << " ";  <the menu lines>  Ostr << hRule();
    (m, m._header ++ ['\n'] ++ center ++ ['\n'] ++ rule ++ ['\n']
      ++ (if lines = [] then m._external_border ++ [' ']
          else lines.flatMap fun line => line ++ ['\n'])
      ++ rule)

end Util

/-! ## Library loader (src/include/DLTools.H) -/

namespace Sys

/-- The data members of `DynamicObjectLib` that `Load` touches: the pair `first` (the
name) and `second` (the handle, `0` is `NULL`), and `_path`. -/
structure DynamicObjectLib where
  first : String
  second : Nat
  _path : String
  deriving DecidableEq

/-- Member function `Handle()`, DLTools.H line 42. -/
def DynamicObjectLib.Handle (lib : DynamicObjectLib) : Nat := lib.second

/-- Member function `Name()`, DLTools.H line 43. -/
def DynamicObjectLib.Name (lib : DynamicObjectLib) : String := lib.first

/-- What a call of `Load` leaves: the object, the handles it handed to `dlclose`, in
order, and the value returned. -/
structure LoadResult where
  lib : DynamicObjectLib
  closed : List Nat
  ret : Int
  deriving DecidableEq

/-- Member function `Load(name,path)`, DLTools.H lines 72-84.  `dlopen` is what the system
loader answers for a path (`0` when the library cannot be opened). -/
def DynamicObjectLib.Load (lib : DynamicObjectLib) (dlopen : String → Nat)
    (name path : String) : LoadResult :=
  -- void *handle = dlopen(path.c_str(),RTLD_LAZY);
  let handle := dlopen path
  -- if(handle){
  if handle ≠ 0 then
    -- if(this->second) dlclose(this->second);
    let closed := if lib.second ≠ 0 then [lib.second] else []
    -- this->first = name; this->second = handle; } ... return(0);
    { lib := { lib with first := name, second := handle }, closed := closed, ret := 0 }
  else
    -- else return(1);
    { lib := lib, closed := [], ret := 1 }

end Sys

/-! # Properties -/

namespace Comm

/-! ### Integer conversions -/

theorem toInt32_of_fits (x : Int) (hlo : -(2 ^ 31) ≤ x) (hhi : x < 2 ^ 31) : toInt32 x = x := by
  unfold toInt32
  omega


/-! ### Buffers -/

theorem length_resize {α : Type} (v : List α) (k : Nat) (val : α) :
    (resize v k val).length = k := by
  simp only [resize, List.length_append, List.length_take, List.length_replicate]
  omega

theorem resize_nil {α : Type} (k : Nat) (val : α) : resize [] k val = List.replicate k val := by
  simp [resize]

theorem cells_mul (cell : Nat) (hcell : 0 < cell) (k : Nat) :
    cells cell ((k : Int) * (cell : Int)) = k := by
  have h : (cell : Int) ≠ 0 := by exact_mod_cast Nat.pos_iff_ne_zero.mp hcell
  simp [cells, Int.mul_ediv_cancel _ h]

theorem cells_self (cell : Nat) (hcell : 0 < cell) : cells cell (cell : Int) = 1 := by
  simpa using cells_mul cell hcell 1

theorem length_writeAt {α : Type} (buf : List α) (off : Nat) (msg : List α) :
    (writeAt buf off msg).length = buf.length := by
  simp only [writeAt, List.length_append, List.length_take, List.length_drop]
  omega

theorem writeAt_zero {α : Type} (buf msg : List α) (h : msg.length ≤ buf.length) :
    writeAt buf 0 msg = msg ++ buf.drop msg.length := by
  simp [writeAt, List.take_of_length_le h]

theorem writeAt_zero_full {α : Type} (buf msg : List α) (h : msg.length = buf.length) :
    writeAt buf 0 msg = msg := by
  rw [writeAt_zero buf msg (le_of_eq h), h, List.drop_length, List.append_nil]

/-- Writing right behind a prefix of known length. -/
theorem writeAt_append {α : Type} (pre rest msg : List α) (h : msg.length ≤ rest.length) :
    writeAt (pre ++ rest) pre.length msg = pre ++ msg ++ rest.drop msg.length := by
  simp only [writeAt, List.take_left, List.length_append, Nat.add_sub_cancel_left,
    List.take_of_length_le h, List.drop_append, List.drop_left, List.append_assoc]

/-! ### The tables in closed form -/

theorem tables_loop_inv (n : Nat) (c : List Int) (s : Int) (k : Nat) (hk : k ≤ n) :
    (List.range k).foldl
      (fun (st : List Int × List Int) i =>
        let allsizes := st.1.set i (c.getD i 0 * s)
        let disps :=
          if i > 0 then st.2.set i (st.2.getD (i - 1) 0 + allsizes.getD (i - 1) 0) else st.2
        (allsizes, disps))
      (List.replicate n 0, List.replicate n 0)
    = ((List.range n).map (fun i => if i < k then c.getD i 0 * s else 0),
       (List.range n).map (fun i => if i < k then prefixBytes c s i else 0)) := by
  induction k with
  | zero =>
    simp only [List.range_zero, List.foldl_nil, Nat.not_lt_zero, if_false]
    refine Prod.ext ?_ ?_ <;> simp [List.ext_getElem?_iff, List.getElem?_replicate]
  | succ k ih =>
    rw [List.range_succ, List.foldl_append, ih (Nat.le_of_succ_le hk)]
    simp only [List.foldl_cons, List.foldl_nil]
    refine Prod.ext ?_ ?_
    · apply List.ext_getElem?
      intro i
      simp only [List.getElem?_set, List.length_map, List.length_range, List.getElem?_map,
        List.getElem?_range]
      by_cases hik : k = i
      · subst hik
        have hkn : k < n := hk
        simp [List.getElem?_range, hkn]
      · by_cases hin : i < n
        · simp [List.getElem?_range hin, hik]
          have : (i < k + 1) ↔ (i < k) := by omega
          simp [this]
        · simp [hik, List.getElem?_eq_none, Nat.le_of_not_lt hin]
    · by_cases hk0 : k > 0
      · simp only [hk0, if_true]
        apply List.ext_getElem?
        intro i
        have hk1 : k - 1 < n := by omega
        have hk1k : k - 1 < k := by omega
        simp only [List.getElem?_set, List.length_map, List.length_range, List.getElem?_map,
          List.getD_eq_getElem?_getD]
        by_cases hik : k = i
        · subst hik
          have hkn : k < n := hk
          have hne : ¬ (k = k - 1) := by omega
          simp [List.getElem?_range, hkn, hk1, hk1k, hne, prefixBytes]
          have : k = (k - 1) + 1 := by omega
          conv_rhs => rw [this, Finset.sum_range_succ]
        · by_cases hin : i < n
          · simp [List.getElem?_range hin, hik]
            have : (i < k + 1) ↔ (i < k) := by omega
            simp [this]
          · simp [hik, List.getElem?_eq_none, Nat.le_of_not_lt hin]
      · have hk0 : k = 0 := by omega
        subst hk0
        simp only [gt_iff_lt, lt_self_iff_false, if_false]
        apply List.ext_getElem?
        intro i
        simp only [List.getElem?_map]
        by_cases hin : i < n
        · simp [List.getElem?_range hin]
          split
          · rename_i hi0
            subst hi0
            simp [prefixBytes]
          · rfl
        · simp [List.getElem?_eq_none, Nat.le_of_not_lt hin]

/-! ### Sequence broadcast -/

theorem BroadCast_buf_ok {α : Type} [Inhabited α] (sizeofdata : Nat) (hsize : 0 < sizeofdata)
    (root_rank : Nat) (buf : Nat → List α) (rank : Nat) :
    (BroadCast sizeofdata root_rank (fun _ => MPI_SUCCESS) (fun _ => MPI_SUCCESS) buf rank).buf
      = buf root_rank := by
  by_cases hr : rank = root_rank
  · subst hr
    simp [BroadCast, MPI_Bcast]
  · have h1 : cells 1 1 = 1 := by simpa using cells_self 1 Nat.one_pos
    simp only [BroadCast, MPI_Bcast, hr, false_or, ne_eq, not_true_eq_false, if_false,
      if_true, not_false_eq_true, h1, cells_mul sizeofdata hsize, length_resize]
    simp only [writeAt, List.take_zero, List.length_singleton, List.take_succ_cons,
      List.nil_append, Nat.sub_zero, Nat.zero_add, List.drop_succ_cons, List.drop_zero,
      List.append_nil, List.headD_cons, Int.toNat_ofNat, List.take_length, length_resize,
      List.drop_length, List.take_take, min_self, List.length_take]
    simp [length_resize]

/-- Claim C1: for a group of size `n ≥ 1`, a root `root < n` and any per-rank initial
sequences, after every rank has called `BroadCast(buf, root)` over a transport that
succeeds, the sequence of every rank equals the root's pre-call sequence, element for
element and in length; the root's own sequence is left as it was. -/
theorem BroadCast_vector_delivers_root {α : Type} [Inhabited α] (sizeofdata : Nat)
    (hsize : 0 < sizeofdata) (n : Nat) (root : Nat) (hroot : root < n)
    (buf : Nat → List α) (rank : Nat) (hrank : rank < n) :
    (BroadCast sizeofdata root (fun _ => MPI_SUCCESS) (fun _ => MPI_SUCCESS) buf rank).buf
        = buf root
    ∧ (BroadCast sizeofdata root (fun _ => MPI_SUCCESS) (fun _ => MPI_SUCCESS) buf rank).buf.length
        = (buf root).length
    ∧ (BroadCast sizeofdata root (fun _ => MPI_SUCCESS) (fun _ => MPI_SUCCESS) buf root).buf
        = buf root := by
  refine ⟨BroadCast_buf_ok sizeofdata hsize root buf rank, ?_,
    BroadCast_buf_ok sizeofdata hsize root buf root⟩
  rw [BroadCast_buf_ok sizeofdata hsize root buf rank]

/-- Three ranks broadcasting from rank 1: ranks 0 and 2, which held nothing and three
elements, end with the two elements of rank 1. -/
theorem BroadCast_vector_delivers_root_witness :
    (0 < 4 ∧ 1 < 3 ∧ 2 < 3) ∧
    (BroadCast 4 1 (fun _ => MPI_SUCCESS) (fun _ => MPI_SUCCESS)
        (fun k => match k with | 0 => [] | 1 => [10, 10] | _ => [20, 20, 20]) 2).buf
      = [10, 10] :=
  ⟨by decide,
   (BroadCast_vector_delivers_root 4 (by decide) 3 1 (by decide)
      (fun k => match k with | 0 => [] | 1 => [10, 10] | _ => [20, 20, 20]) 2
      (by decide)).1⟩

/-! ### Placement of the blocks by the gathering primitives -/

theorem placeAll_concat {α : Type} (n : Nat) (off : Nat → Nat) (msg : Nat → List α)
    (buf : List α)
    (hoff : ∀ i, i < n → off i = ((List.range i).flatMap msg).length)
    (hfit : ((List.range n).flatMap msg).length ≤ buf.length) :
    placeAll n off msg buf
      = (List.range n).flatMap msg ++ buf.drop ((List.range n).flatMap msg).length := by
  induction n with
  | zero => simp [placeAll]
  | succ n ih =>
    have hlen : ((List.range (n + 1)).flatMap msg).length
        = ((List.range n).flatMap msg).length + (msg n).length := by
      simp [List.range_succ, List.flatMap_append]
    have ih1 := ih (fun i hi => hoff i (Nat.lt_succ_of_lt hi)) (by omega)
    unfold placeAll at ih1 ⊢
    rw [List.range_succ, List.foldl_append, ih1]
    simp only [List.foldl_cons, List.foldl_nil]
    rw [hoff n (Nat.lt_succ_self n), writeAt_append _ _ _ (by simp only [List.length_drop]; omega)]
    simp only [← List.range_succ, hlen, List.drop_drop]
    simp [List.range_succ, List.flatMap_append, Nat.add_comm]

theorem placeAll_concat_full {α : Type} (n : Nat) (off : Nat → Nat) (msg : Nat → List α)
    (buf : List α)
    (hoff : ∀ i, i < n → off i = ((List.range i).flatMap msg).length)
    (hfit : ((List.range n).flatMap msg).length = buf.length) :
    placeAll n off msg buf = (List.range n).flatMap msg := by
  rw [placeAll_concat n off msg buf hoff (le_of_eq hfit), hfit, List.drop_length,
    List.append_nil]

theorem flatMap_singleton_eq_map {α β : Type} (f : α → β) (l : List α) :
    (l.flatMap fun i => [f i]) = l.map f := by
  induction l with
  | nil => rfl
  | cons a l ih => simp [List.flatMap_cons, ih]

/-! ### Fixed-size collection -/

theorem MPI_Allgather_scalar {α : Type} (cell n : Nat) (hcell : 0 < cell) (x : Nat → α)
    (recvbuf : List α) (hlen : recvbuf.length = n) :
    placeAll n (fun i => i * cells cell (cell : Int))
      (fun i => (([x i] : List α).take (cells cell (cell : Int))).take (cells cell (cell : Int)))
      recvbuf = (List.range n).map x := by
  rw [cells_self cell hcell]
  simp only [List.take_succ_cons, List.take_zero, Nat.mul_one]
  rw [placeAll_concat_full n _ _ recvbuf, flatMap_singleton_eq_map]
  · intro i _
    simp [flatMap_singleton_eq_map]
  · simp [flatMap_singleton_eq_map, hlen]

theorem AllGather_eq {α : Type} [Inhabited α] (messagesize n : Nat) (hsize : 0 < messagesize)
    (sendval : Nat → α) (recvvec : Nat → List α) (rank : Nat) :
    AllGather messagesize n sendval recvvec rank = (List.range n).map sendval := by
  simp only [AllGather, MPI_Allgather]
  exact MPI_Allgather_scalar messagesize n hsize sendval _ (length_resize _ _ _)

/-- Claim C8: for a group of size `n` and a per-rank value `sendval i`, after every rank
has called `AllGather(sendval, recvvec)` the receive vector of every rank has length
exactly `n` and holds `sendval i` at index `i`, in ascending rank order, whatever the
receive vector held (and whatever its length was) before the call. -/
theorem AllGather_scalar_collects {α : Type} [Inhabited α] (messagesize : Nat)
    (hsize : 0 < messagesize) (n : Nat) (sendval : Nat → α) (recvvec : Nat → List α)
    (rank : Nat) (hrank : rank < n) :
    (AllGather messagesize n sendval recvvec rank).length = n
    ∧ (∀ i, i < n → (AllGather messagesize n sendval recvvec rank)[i]? = some (sendval i))
    ∧ AllGather messagesize n sendval recvvec rank = (List.range n).map sendval := by
  rw [AllGather_eq messagesize n hsize]
  refine ⟨by simp, ?_, rfl⟩
  intro i hi
  simp [List.getElem?_range hi]

/-- Four ranks, rank `k` contributing the integer `k`, receive vectors of different
prior lengths: every rank ends with `[0,1,2,3]`. -/
theorem AllGather_scalar_collects_witness :
    0 < 4 ∧
    (AllGather 4 4 (fun k => (k : Int)) (fun k => List.replicate (2 * k) 7) 0 = [0, 1, 2, 3]
    ∧ AllGather 4 4 (fun k => (k : Int)) (fun k => List.replicate (2 * k) 7) 1 = [0, 1, 2, 3]
    ∧ AllGather 4 4 (fun k => (k : Int)) (fun k => List.replicate (2 * k) 7) 2 = [0, 1, 2, 3]
    ∧ AllGather 4 4 (fun k => (k : Int)) (fun k => List.replicate (2 * k) 7) 3 = [0, 1, 2, 3]) :=
  ⟨by decide,
   (AllGather_scalar_collects 4 (by decide) 4 (fun k => (k : Int))
      (fun k => List.replicate (2 * k) 7) 0 (by decide)).2.2,
   (AllGather_scalar_collects 4 (by decide) 4 (fun k => (k : Int))
      (fun k => List.replicate (2 * k) 7) 1 (by decide)).2.2,
   (AllGather_scalar_collects 4 (by decide) 4 (fun k => (k : Int))
      (fun k => List.replicate (2 * k) 7) 2 (by decide)).2.2,
   (AllGather_scalar_collects 4 (by decide) 4 (fun k => (k : Int))
      (fun k => List.replicate (2 * k) 7) 3 (by decide)).2.2⟩

/-! ### Reduction with sum -/

theorem foldl_add_range' (x : Nat → Int) (m : Nat) :
    (List.range' 1 m).foldl (fun acc i => acc + x i) (x 0) = ∑ i in Finset.range (m + 1), x i := by
  induction m with
  | zero => simp
  | succ m ih =>
    rw [List.range'_concat, List.foldl_append, ih, Finset.sum_range_succ _ (m + 1)]
    simp [Nat.add_comm]

theorem reduceRanks_add (n : Nat) (hn : 1 ≤ n) (x : Nat → Int) :
    reduceRanks (fun a b => a + b) n x = ∑ i in Finset.range n, x i := by
  obtain ⟨m, rfl⟩ : ∃ m, n = m + 1 := ⟨n - 1, by omega⟩
  simpa [reduceRanks] using foldl_add_range' x m

theorem AllReduce_sum_eq (n : Nat) (hn : 1 ≤ n) (send recv : Nat → Int) :
    AllReduce n send recv DataTypes.DTINT Ops.SUMOP
      = some (fun _ => ∑ i in Finset.range n, send i) := by
  have h1 : List.range 1 = [0] := rfl
  simp only [AllReduce, MPI_Allreduce, ResolveDataType, ResolveOp, MPI_Op.onInt, if_true,
    Option.map_some', Option.some.injEq]
  funext rank
  simp [writeAt, reduceRanks_add n hn, h1]

/-! ### The reduction on 32-bit cells -/

theorem toInt32_add_toInt32 (a b : Int) : toInt32 (toInt32 a + b) = toInt32 (a + b) := by
  unfold toInt32
  omega

theorem foldl_add_int32_range' (x : Nat → Int) (m : Nat) :
    toInt32 ((List.range' 1 m).foldl (fun acc i => toInt32 (acc + x i)) (x 0))
      = toInt32 (∑ i in Finset.range (m + 1), x i) := by
  induction m with
  | zero => simp
  | succ m ih =>
    have e : 1 + 1 * m = m + 1 := by omega
    rw [List.range'_concat, List.foldl_append, Finset.sum_range_succ _ (m + 1), e]
    simp only [List.foldl_cons, List.foldl_nil]
    generalize (List.range' 1 m).foldl (fun acc i => toInt32 (acc + x i)) (x 0) = A at ih ⊢
    generalize ∑ i in Finset.range (m + 1), x i = S at ih ⊢
    unfold toInt32 at ih ⊢
    omega

/-- A sum that fits an `int` is what the 32-bit additions of the ranks' values give. -/
theorem reduceRanks_add_int32 (n : Nat) (hn : 1 ≤ n) (x : Nat → Int)
    (hlo : -(2 ^ 31) ≤ ∑ i in Finset.range n, x i)
    (hhi : ∑ i in Finset.range n, x i < 2 ^ 31) :
    reduceRanks (fun a b => toInt32 (a + b)) n x = ∑ i in Finset.range n, x i := by
  obtain ⟨m, rfl⟩ : ∃ m, n = m + 1 := ⟨n - 1, by omega⟩
  cases m with
  | zero => simp [reduceRanks]
  | succ m =>
    have h := foldl_add_int32_range' x m
    simp only [reduceRanks, Nat.add_sub_cancel]
    have e : 1 + 1 * m = m + 1 := by omega
    rw [List.range'_concat, List.foldl_append, e]
    simp only [List.foldl_cons, List.foldl_nil]
    rw [Finset.sum_range_succ _ (m + 1)] at hlo hhi ⊢
    generalize (List.range' 1 m).foldl (fun acc i => toInt32 (acc + x i)) (x 0) = A at h ⊢
    generalize ∑ i in Finset.range (m + 1), x i = S at h hlo hhi ⊢
    unfold toInt32 at h ⊢
    omega

theorem AllReduce_int32_sum_eq (n : Nat) (hn : 1 ≤ n) (send recv : Nat → Int)
    (hlo : -(2 ^ 31) ≤ ∑ i in Finset.range n, send i)
    (hhi : ∑ i in Finset.range n, send i < 2 ^ 31) :
    AllReduce_int32 n send recv DataTypes.DTINT Ops.SUMOP
      = some (fun _ => ∑ i in Finset.range n, send i) := by
  have h1 : List.range 1 = [0] := rfl
  simp only [AllReduce_int32, MPI_Allreduce_int32, ResolveDataType, ResolveOp, MPI_Op.onInt32,
    if_true, Option.map_some', Option.some.injEq]
  funext rank
  simp [writeAt, reduceRanks_add_int32 n hn send hlo hhi, h1]

/-- When the sum fits an `int`, the reduction on 32-bit cells is the reduction on
mathematical integers. -/
theorem AllReduce_int32_eq_of_fits (n : Nat) (hn : 1 ≤ n) (send recv : Nat → Int)
    (hlo : -(2 ^ 31) ≤ ∑ i in Finset.range n, send i)
    (hhi : ∑ i in Finset.range n, send i < 2 ^ 31) :
    AllReduce_int32 n send recv DataTypes.DTINT Ops.SUMOP
      = AllReduce n send recv DataTypes.DTINT Ops.SUMOP := by
  rw [AllReduce_int32_sum_eq n hn send recv hlo hhi, AllReduce_sum_eq n hn send recv]

/-- Claim C9, as amended: for a group of size `n ≥ 1` and per-rank `int` values `send i`
whose sum lies in the range of `int`, after every rank has called
`AllReduce(send, recv, DTINT, SUMOP)` the call has returned and `recv` is
`send 0 + ... + send (n-1)` at every rank; for the sequence overload, called with
sequences of one common length `m` whose elementwise sums lie in the range of `int`,
`recv` has length `m` at every rank, whatever it held before, and holds the elementwise
sums. -/
theorem AllReduce_sum_everywhere (n : Nat) (hn : 1 ≤ n) (rank : Nat) (hrank : rank < n) :
    (∀ (send recv : Nat → Int),
      -(2 ^ 31) ≤ ∑ i in Finset.range n, send i → ∑ i in Finset.range n, send i < 2 ^ 31 →
      (AllReduce_int32 n send recv DataTypes.DTINT Ops.SUMOP).map (fun out => out rank)
        = some (∑ i in Finset.range n, send i))
    ∧ (∀ (m : Nat) (send recv : Nat → List Int), (∀ i, i < n → (send i).length = m) →
      (∀ j, j < m → -(2 ^ 31) ≤ ∑ i in Finset.range n, (send i).getD j 0
        ∧ ∑ i in Finset.range n, (send i).getD j 0 < 2 ^ 31) →
      ∃ out, AllReduce_vector_int32 n send recv DataTypes.DTINT Ops.SUMOP = some out
        ∧ (out rank).length = m
        ∧ (out rank).length = (send rank).length
        ∧ ∀ j, j < m → (out rank)[j]? = some (∑ i in Finset.range n, (send i).getD j 0)) := by
  constructor
  · intro send recv hlo hhi
    rw [AllReduce_int32_sum_eq n hn send recv hlo hhi]
    rfl
  · intro m send recv hlen hfit
    refine ⟨_, by simp [AllReduce_vector_int32, MPI_Allreduce_int32, ResolveDataType,
      ResolveOp, MPI_Op.onInt32]; rfl, ?_, ?_, ?_⟩
    · simp [length_writeAt, length_resize, hlen rank hrank]
    · simp [length_writeAt, length_resize]
    · intro j hj
      rw [writeAt_zero_full _ _ (by simp [length_resize])]
      simp only [hlen rank hrank, Int.toNat_ofNat, List.getElem?_map, List.getElem?_range hj,
        Option.map_some', Option.some.injEq]
      simpa only [List.getD_eq_getElem?_getD] using
        reduceRanks_add_int32 n hn (fun i => (send i).getD j 0) (hfit j hj).1 (hfit j hj).2

/-- Four ranks, rank `k` contributing `k`: the sum `6` at every rank. -/
theorem AllReduce_sum_everywhere_witness :
    (1 ≤ 4)
    ∧ (-(2 ^ 31) ≤ ∑ i in Finset.range 4, (i : Int) ∧ ∑ i in Finset.range 4, (i : Int) < 2 ^ 31)
    ∧ ((AllReduce_int32 4 (fun k => (k : Int)) (fun _ => 0) DataTypes.DTINT Ops.SUMOP).map
        (fun out => (out 0, out 1, out 2, out 3)) = some (6, 6, 6, 6)) := by
  have hlo : -(2 ^ 31) ≤ ∑ i in Finset.range 4, (i : Int) := by decide
  have hhi : ∑ i in Finset.range 4, (i : Int) < 2 ^ 31 := by decide
  refine ⟨by decide, ⟨hlo, hhi⟩, ?_⟩
  have h0 := (AllReduce_sum_everywhere 4 (by decide) 0 (by decide)).1 (fun k => (k : Int))
    (fun _ => 0) hlo hhi
  have h1 := (AllReduce_sum_everywhere 4 (by decide) 1 (by decide)).1 (fun k => (k : Int))
    (fun _ => 0) hlo hhi
  have h2 := (AllReduce_sum_everywhere 4 (by decide) 2 (by decide)).1 (fun k => (k : Int))
    (fun _ => 0) hlo hhi
  have h3 := (AllReduce_sum_everywhere 4 (by decide) 3 (by decide)).1 (fun k => (k : Int))
    (fun _ => 0) hlo hhi
  cases h : AllReduce_int32 4 (fun k => (k : Int)) (fun _ => 0) DataTypes.DTINT Ops.SUMOP with
  | none => simp [h] at h0
  | some out =>
    simp only [h, Option.map_some', Option.some.injEq] at h0 h1 h2 h3
    simp only [Option.map_some', h0, h1, h2, h3, Finset.sum_range_succ, Finset.sum_range_zero]
    rfl

/-- Claim C9 fails as stated: four ranks each contributing `2^30`.  The exact sum is
`2^32`; every rank ends with `recv = 0`, the 32-bit reading of it.  Likewise for the
sequence overload on two ranks each contributing `[2^30, 1]`: the elementwise sums are
`[2^31, 2]`, and every rank ends with `[-2^31, 2]`. -/
theorem AllReduce_int32_sum_wraps :
    (AllReduce_int32 4 (fun _ => 2 ^ 30) (fun _ => 0) DataTypes.DTINT Ops.SUMOP).map
        (fun out => (out 0, out 1, out 2, out 3)) = some (0, 0, 0, 0)
    ∧ (∑ _i in Finset.range 4, (2 ^ 30 : Int)) = 4294967296
    ∧ (AllReduce_vector_int32 2 (fun _ => [2 ^ 30, 1]) (fun _ => []) DataTypes.DTINT
        Ops.SUMOP).map (fun out => (out 0, out 1))
          = some ([-2147483648, 2], [-2147483648, 2]) := by
  decide

/-! ### Variable-size collection -/

theorem placeAll_congr {α : Type} (n : Nat) (off off' : Nat → Nat) (msg msg' : Nat → List α)
    (buf : List α) (hoff : ∀ i, i < n → off i = off' i) (hmsg : ∀ i, i < n → msg i = msg' i) :
    placeAll n off msg buf = placeAll n off' msg' buf := by
  induction n with
  | zero => rfl
  | succ n ih =>
    have ih1 := ih (fun i hi => hoff i (Nat.lt_succ_of_lt hi))
      (fun i hi => hmsg i (Nat.lt_succ_of_lt hi))
    unfold placeAll at ih1 ⊢
    rw [List.range_succ, List.foldl_append, List.foldl_append, ih1]
    simp [hoff n (Nat.lt_succ_self n), hmsg n (Nat.lt_succ_self n)]

theorem getD_map_range_nat (n : Nat) (f : Nat → Nat) (i : Nat) (hi : i < n) :
    ((List.range n).map f).getD i 0 = f i := by
  simp [List.getD_eq_getElem?_getD, List.getElem?_range hi]

theorem getD_map_range (n : Nat) (f : Nat → Int) (i : Nat) (hi : i < n) :
    ((List.range n).map f).getD i 0 = f i := by
  simp [List.getD_eq_getElem?_getD, List.getElem?_range hi]

theorem length_flatMap_range_succ {α : Type} (v : Nat → List α) (i : Nat) :
    ((List.range (i + 1)).flatMap v).length = ((List.range i).flatMap v).length + (v i).length := by
  simp [List.range_succ, List.flatMap_append]

theorem sum_lengths_eq {α : Type} (v : Nat → List α) (i : Nat) :
    (∑ j in Finset.range i, ((v j).length : Int)) = (((List.range i).flatMap v).length : Int) := by
  induction i with
  | zero => simp
  | succ i ih => rw [Finset.sum_range_succ, ih, length_flatMap_range_succ]; push_cast; rfl

/-- The prefix sum of `count[j] * datasize` is the byte offset of the block of rank `i`
in the concatenation of the contributions. -/
theorem prefixBytes_lengths {α : Type} (v : Nat → List α) (c : List Int) (datasize : Int)
    (n : Nat) (hc : ∀ j, j < n → c.getD j 0 = ((v j).length : Int)) (i : Nat) (hi : i ≤ n) :
    prefixBytes c datasize i = (((List.range i).flatMap v).length : Int) * datasize := by
  unfold prefixBytes
  rw [← sum_lengths_eq, Finset.sum_mul]
  refine Finset.sum_congr rfl ?_
  intro j hj
  rw [hc j (by have := Finset.mem_range.mp hj; omega)]

theorem placeAll_gatherv {α : Type} (datasize n : Nat) (hsize : 0 < datasize)
    (v : Nat → List α) (sendcount : Nat → Int) (recvcounts displs : List Int) (buf : List α)
    (hsend : ∀ i, i < n → sendcount i = ((v i).length : Int) * (datasize : Int))
    (hrecv : ∀ i, i < n → recvcounts.getD i 0 = ((v i).length : Int) * (datasize : Int))
    (hdisp : ∀ i, i < n →
      displs.getD i 0 = (((List.range i).flatMap v).length : Int) * (datasize : Int))
    (hbuf : buf.length = ((List.range n).flatMap v).length) :
    placeAll n (fun i => cells datasize (displs.getD i 0))
      (fun i => ((v i).take (cells datasize (sendcount i))).take
        (cells datasize (recvcounts.getD i 0))) buf
      = (List.range n).flatMap v := by
  rw [placeAll_congr n _ (fun i => ((List.range i).flatMap v).length) _ v buf]
  · exact placeAll_concat_full n _ v buf (fun i _ => rfl) hbuf.symm
  · intro i hi
    simp only [hdisp i hi, cells_mul datasize hsize]
  · intro i hi
    simp only [hsend i hi, hrecv i hi, cells_mul datasize hsize, List.take_length]

/-- The tables of `Gatherv` in closed form. -/
theorem Gatherv_tables_eq (n : Nat) (c : List Int) (s : Int) :
    Gatherv_tables n c s
      = ((List.range n).map (fun i => c.getD i 0 * s),
         (List.range n).map (fun i => prefixBytes c s i)) := by
  unfold Gatherv_tables
  rw [tables_loop_inv n c s n (le_refl n)]
  refine Prod.ext ?_ ?_ <;>
  · apply List.map_congr_left
    intro i hi
    simp [List.mem_range.mp hi]

/-- The tables of `Scatterv` in closed form. -/
theorem Scatterv_tables_eq (n : Nat) (c : List Int) (s : Int) :
    Scatterv_tables n c s
      = ((List.range n).map (fun i => c.getD i 0 * s),
         (List.range n).map (fun i => prefixBytes c s i)) := by
  unfold Scatterv_tables
  rw [tables_loop_inv n c s n (le_refl n)]
  refine Prod.ext ?_ ?_ <;>
  · apply List.map_congr_left
    intro i hi
    simp [List.mem_range.mp hi]

theorem _AllGatherv_concat {α : Type} (datasize n : Nat) (hsize : 0 < datasize)
    (sendbuf recvbuf : Nat → List α) (rank : Nat)
    (hbuf : (recvbuf rank).length = ((List.range n).flatMap sendbuf).length) :
    _AllGatherv n sendbuf (fun r => ((sendbuf r).length : Int)) datasize recvbuf rank
      = (List.range n).flatMap sendbuf := by
  simp only [_AllGatherv, MPI_Allgatherv]
  have hc : ∀ j, j < n →
      (AllGather sizeof_int n (fun r => ((sendbuf r).length : Int)) (fun _ => []) rank).getD j 0
        = ((sendbuf j).length : Int) := by
    intro j hj
    rw [AllGather_eq sizeof_int n (by decide), getD_map_range n _ j hj]
  apply placeAll_gatherv datasize n hsize sendbuf _ _ _ _ (fun i _ => rfl) _ _ hbuf
  · intro i hi
    rw [getD_map_range n _ i hi, hc i hi]
  · intro i hi
    rw [getD_map_range n _ i hi]
    exact prefixBytes_lengths sendbuf _ _ n hc i (le_of_lt hi)

theorem sum_lengths_nat {α : Type} (v : Nat → List α) (i : Nat) :
    (∑ j in Finset.range i, (v j).length) = ((List.range i).flatMap v).length := by
  induction i with
  | zero => simp
  | succ i ih => rw [Finset.sum_range_succ, ih, length_flatMap_range_succ]

/-- The block of rank `i` inside the concatenation of the contributions. -/
theorem readAt_flatMap_range {α : Type} (v : Nat → List α) (n i : Nat) (hi : i < n) :
    readAt ((List.range n).flatMap v) ((List.range i).flatMap v).length (v i).length = v i := by
  obtain ⟨m, rfl⟩ : ∃ m, n = (i + 1) + m := ⟨n - (i + 1), by omega⟩
  rw [List.range_add, List.flatMap_append, List.range_succ, List.flatMap_append,
    List.flatMap_singleton, List.append_assoc]
  simp [readAt]

theorem AllGatherv_eq {α : Type} [Inhabited α] (datasize n : Nat) (hsize : 0 < datasize)
    (hn : 1 ≤ n) (sendvec recvvec : Nat → List α) :
    ∃ out, AllGatherv datasize n sendvec recvvec = some out
      ∧ ∀ rank, out rank = (List.range n).flatMap sendvec := by
  refine ⟨_, by simp only [AllGatherv, AllReduce_sum_eq n hn, Option.map_some']; rfl, ?_⟩
  intro rank
  apply _AllGatherv_concat datasize n hsize
  rw [length_resize, sum_lengths_eq, Int.toNat_ofNat]

/-- Claim C2: for a group of size `n` and per-rank input sequences `sendvec 0`, ...,
`sendvec (n-1)`, after every rank has called `AllGatherv(sendvec, recvvec)` the call has
returned and the receive vector of every rank is the concatenation of the inputs in
ascending rank order: its length is the sum of the input lengths and its segment for
rank `i` (starting at the summed lengths of the ranks below `i`) equals `sendvec i`. -/
theorem AllGatherv_concatenates {α : Type} [Inhabited α] (datasize : Nat)
    (hsize : 0 < datasize) (n : Nat) (sendvec recvvec : Nat → List α) (rank : Nat)
    (hrank : rank < n) :
    ∃ out, AllGatherv datasize n sendvec recvvec = some out
      ∧ out rank = (List.range n).flatMap sendvec
      ∧ (out rank).length = ∑ i in Finset.range n, (sendvec i).length
      ∧ ∀ i, i < n →
          readAt (out rank) (∑ j in Finset.range i, (sendvec j).length) (sendvec i).length
            = sendvec i := by
  obtain ⟨out, hout, heq⟩ := AllGatherv_eq datasize n hsize (by omega) sendvec recvvec
  refine ⟨out, hout, heq rank, ?_, ?_⟩
  · rw [heq rank, sum_lengths_nat]
  · intro i hi
    rw [heq rank, sum_lengths_nat]
    exact readAt_flatMap_range sendvec n i hi

/-- Three ranks contributing `[]`, `[1]` and `[2,2]`, with a receive vector that held
one element: rank 2 ends with `[1,2,2]`. -/
theorem AllGatherv_concatenates_witness :
    (0 < 8 ∧ 2 < 3) ∧
    (AllGatherv 8 3 (fun k => List.replicate k k) (fun _ => [7])).map (fun out => out 2)
      = some [1, 2, 2] := by
  refine ⟨by decide, ?_⟩
  obtain ⟨out, hout, heq, _⟩ :=
    AllGatherv_concatenates 8 (by decide) 3 (fun k => List.replicate k k) (fun _ => [7]) 2
      (by decide)
  rw [hout, Option.map_some', heq]
  rfl

/-! ### Union -/

theorem mem_cons_uniqueFrom {α : Type} [DecidableEq α] (x : α) (l : List α) (a : α) :
    x ∈ a :: uniqueFrom a l ↔ x ∈ a :: l := by
  induction l generalizing a with
  | nil => simp [uniqueFrom]
  | cons b l ih =>
    by_cases hab : a = b
    · subst hab
      simp only [uniqueFrom, if_true, ih a, List.mem_cons]
      tauto
    · simp only [uniqueFrom, hab, if_false]
      rw [List.mem_cons, ih b, List.mem_cons (a := x) (b := a)]

theorem mem_unique {α : Type} [DecidableEq α] (x : α) (l : List α) : x ∈ unique l ↔ x ∈ l := by
  cases l with
  | nil => simp [unique]
  | cons a l => exact mem_cons_uniqueFrom x l a

theorem sorted_cons_uniqueFrom {α : Type} [LinearOrder α] (l : List α) (a : α)
    (h : List.Sorted (fun a b => a ≤ b) (a :: l)) :
    List.Sorted (fun a b => a < b) (a :: uniqueFrom a l) := by
  induction l generalizing a with
  | nil => simp [uniqueFrom]
  | cons b l ih =>
    have hab : a ≤ b := List.rel_of_sorted_cons h b (List.mem_cons_self b l)
    have hbl : List.Sorted (fun a b => a ≤ b) (b :: l) := List.Sorted.of_cons h
    by_cases heq : a = b
    · subst heq
      simp only [uniqueFrom, if_true]
      exact ih a hbl
    · simp only [uniqueFrom, heq, if_false]
      have hlt : a < b := lt_of_le_of_ne hab heq
      refine List.sorted_cons.mpr ⟨?_, ih b hbl⟩
      intro y hy
      rw [mem_cons_uniqueFrom] at hy
      rcases List.mem_cons.mp hy with rfl | hy'
      · exact hlt
      · exact lt_of_lt_of_le hlt (List.rel_of_sorted_cons hbl y hy')

theorem sorted_unique_sort {α : Type} [LinearOrder α] (l : List α) :
    List.Sorted (fun a b => a < b) (unique (sort l)) := by
  have hs : List.Sorted (fun a b => a ≤ b) (sort l) := List.sorted_insertionSort _ l
  cases h : sort l with
  | nil => simp [unique]
  | cons a t =>
    rw [h] at hs
    exact sorted_cons_uniqueFrom t a hs

theorem mem_unique_sort {α : Type} [LinearOrder α] (x : α) (l : List α) :
    x ∈ unique (sort l) ↔ x ∈ l := by
  rw [mem_unique]
  exact (List.perm_insertionSort _ l).mem_iff

/-- A strictly ascending sequence is determined by its elements. -/
theorem eq_of_sorted_of_mem_iff {α : Type} [LinearOrder α] (l₁ l₂ : List α)
    (h₁ : List.Sorted (fun a b => a < b) l₁) (h₂ : List.Sorted (fun a b => a < b) l₂)
    (hmem : ∀ x, x ∈ l₁ ↔ x ∈ l₂) : l₁ = l₂ :=
  List.eq_of_perm_of_sorted ((List.perm_ext_iff_of_nodup h₁.nodup h₂.nodup).mpr hmem) h₁ h₂

theorem Union_eq {α : Type} [Inhabited α] [LinearOrder α] (datasize n : Nat)
    (hsize : 0 < datasize) (hn : 1 ≤ n) (input_data output_data : Nat → List α) :
    ∃ out, Union datasize n input_data output_data = some out
      ∧ ∀ rank, out rank = unique (sort ((List.range n).flatMap input_data)) := by
  obtain ⟨all, hall, heq⟩ := AllGatherv_eq datasize n hsize hn input_data (fun _ => [])
  refine ⟨_, by simp only [Union, hall, Option.map_some']; rfl, ?_⟩
  intro rank
  simp only [heq rank]
  exact writeAt_zero_full _ _ (by rw [length_resize])

/-- Claim C3: for every group and every per-rank input over a totally ordered element
type, after `Union(input, output)` the call has returned, the output is the same
sequence at every rank, it is strictly ascending (sorted, no two equal elements), an
element occurs in it if and only if it occurs in the input of some rank, and every
input element occurs in it exactly once. -/
theorem Union_sorted_without_duplicates {α : Type} [Inhabited α] [LinearOrder α]
    (datasize : Nat) (hsize : 0 < datasize) (n : Nat) (input_data output_data : Nat → List α)
    (rank : Nat) (hrank : rank < n) :
    ∃ out, Union datasize n input_data output_data = some out
      ∧ (∀ r, r < n → out r = out rank)
      ∧ List.Sorted (fun a b => a < b) (out rank)
      ∧ (∀ x, x ∈ out rank ↔ ∃ i, i < n ∧ x ∈ input_data i)
      ∧ (∀ x i, i < n → x ∈ input_data i → (out rank).count x = 1) := by
  obtain ⟨out, hout, heq⟩ := Union_eq datasize n hsize (by omega) input_data output_data
  have hmem : ∀ x, x ∈ out rank ↔ ∃ i, i < n ∧ x ∈ input_data i := by
    intro x
    rw [heq rank, mem_unique_sort, List.mem_flatMap]
    simp only [List.mem_range]
  have hsorted : List.Sorted (fun a b => a < b) (out rank) := by
    rw [heq rank]
    exact sorted_unique_sort _
  refine ⟨out, hout, fun r _ => by rw [heq r, heq rank], hsorted, hmem, ?_⟩
  intro x i hi hx
  exact List.count_eq_one_of_mem hsorted.nodup ((hmem x).mpr ⟨i, hi, hx⟩)

/-- Four ranks, rank `k` contributing `{k, k+1}`: the output is `[0,1,2,3,4]` at every
rank. -/
theorem Union_sorted_without_duplicates_witness :
    (0 < 4 ∧ 0 < 4) ∧
    (∃ out, Union 4 4 (fun k => [k, k + 1]) (fun _ => []) = some out
      ∧ (∀ r, r < 4 → out r = out 0)
      ∧ List.Sorted (fun a b => a < b) (out 0)
      ∧ (∀ x, x ∈ out 0 ↔ ∃ i, i < 4 ∧ x ∈ [i, i + 1])
      ∧ (∀ x i, i < 4 → x ∈ [i, i + 1] → (out 0).count x = 1))
    ∧ (Union 4 4 (fun k => [k, k + 1]) (fun _ => [])).map
        (fun out => (out 0, out 1, out 2, out 3))
      = some ([0, 1, 2, 3, 4], [0, 1, 2, 3, 4], [0, 1, 2, 3, 4], [0, 1, 2, 3, 4]) :=
  ⟨by decide,
   Union_sorted_without_duplicates 4 (by decide) 4 (fun k => [k, k + 1]) (fun _ => []) 0
     (by decide),
   by decide⟩

/-- Claim C4: `Union` is idempotent: when `output` is the result of `Union(input, output)`
at every rank and every rank then calls `Union(output, output2)`, both calls return and
`output2 == output` at every rank. -/
theorem Union_idempotent {α : Type} [Inhabited α] [LinearOrder α]
    (datasize : Nat) (hsize : 0 < datasize) (n : Nat)
    (input_data output_data output_data2 : Nat → List α) (rank : Nat) (hrank : rank < n) :
    ∃ output output2, Union datasize n input_data output_data = some output
      ∧ Union datasize n output output_data2 = some output2
      ∧ output2 rank = output rank := by
  have hn : 1 ≤ n := by omega
  obtain ⟨out, hout, heq⟩ := Union_eq datasize n hsize hn input_data output_data
  obtain ⟨out2, hout2, heq2⟩ := Union_eq datasize n hsize hn out output_data2
  refine ⟨out, out2, hout, hout2, ?_⟩
  rw [heq2 rank]
  apply eq_of_sorted_of_mem_iff
  · exact sorted_unique_sort _
  · rw [heq rank]
    exact sorted_unique_sort _
  · intro x
    rw [mem_unique_sort, List.mem_flatMap]
    constructor
    · rintro ⟨i, _, hx⟩
      rwa [heq i, ← heq rank] at hx
    · intro hx
      exact ⟨rank, List.mem_range.mpr hrank, hx⟩

/-- Two ranks contributing `[3,1]` and `[1,2]`: the union `[1,2,3]` is reproduced by a
second `Union` at rank 1. -/
theorem Union_idempotent_witness :
    (0 < 4 ∧ 1 < 2) ∧
    (∃ output output2,
      Union 4 2 (fun k => if k = 0 then [3, 1] else [1, 2]) (fun _ => []) = some output
      ∧ Union 4 2 output (fun _ => [9]) = some output2
      ∧ output2 1 = output 1)
    ∧ (Union 4 2 (fun k => if k = 0 then [3, 1] else [1, 2]) (fun _ => [])).map
        (fun out => out 1) = some [1, 2, 3] :=
  ⟨by decide,
   Union_idempotent 4 (by decide) 2 (fun k => if k = 0 then [3, 1] else [1, 2]) (fun _ => [])
     (fun _ => [9]) 1 (by decide),
   by decide⟩

/-! ### Prefix-sum offsets -/

/-- While every byte size and every prefix sum fits an `int`, the loop on 32-bit cells
goes through the states of the loop on mathematical integers. -/
theorem tables_int32_loop_inv (n : Nat) (c : List Int) (s : Int)
    (hsize : ∀ i, i < n → -(2 ^ 31) ≤ c.getD i 0 * s ∧ c.getD i 0 * s < 2 ^ 31)
    (hsum : ∀ i, i < n → -(2 ^ 31) ≤ prefixBytes c s i ∧ prefixBytes c s i < 2 ^ 31)
    (k : Nat) (hk : k ≤ n) :
    (List.range k).foldl
      (fun (st : List Int × List Int) i =>
        let allsizes := st.1.set i (toInt32 (c.getD i 0 * s))
        let disps :=
          if i > 0 then
            st.2.set i (toInt32 (st.2.getD (i - 1) 0 + allsizes.getD (i - 1) 0))
          else st.2
        (allsizes, disps))
      (List.replicate n 0, List.replicate n 0)
    = ((List.range n).map (fun i => if i < k then c.getD i 0 * s else 0),
       (List.range n).map (fun i => if i < k then prefixBytes c s i else 0)) := by
  induction k with
  | zero => exact tables_loop_inv n c s 0 hk
  | succ k ih =>
    have hkn : k < n := hk
    have hnext := tables_loop_inv n c s (k + 1) hk
    rw [List.range_succ, List.foldl_append, tables_loop_inv n c s k (Nat.le_of_succ_le hk)]
      at hnext
    rw [List.range_succ, List.foldl_append, ih (Nat.le_of_succ_le hk)]
    simp only [List.foldl_cons, List.foldl_nil] at hnext ⊢
    rw [toInt32_of_fits _ (hsize k hkn).1 (hsize k hkn).2]
    by_cases hk0 : k > 0
    · simp only [hk0, if_true] at hnext ⊢
      have h2 := congrArg (fun p : List Int × List Int => p.2[k]?) hnext
      simp only [List.getElem?_set, List.length_map, List.length_range, List.getElem?_map,
        List.getElem?_range hkn, if_true, hkn, Option.map_some', Nat.lt_succ_self,
        Option.some.injEq] at h2
      rw [h2, toInt32_of_fits _ (hsum k hkn).1 (hsum k hkn).2, ← h2]
      exact hnext
    · simp only [hk0, if_false] at hnext ⊢
      exact hnext

/-- While every byte size and every prefix sum fits an `int`, the tables of `Gatherv` on
32-bit cells are the tables on mathematical integers. -/
theorem Gatherv_tables_int32_eq_of_fits (n : Nat) (c : List Int) (s : Int)
    (hsize : ∀ i, i < n → -(2 ^ 31) ≤ c.getD i 0 * s ∧ c.getD i 0 * s < 2 ^ 31)
    (hsum : ∀ i, i < n → -(2 ^ 31) ≤ prefixBytes c s i ∧ prefixBytes c s i < 2 ^ 31) :
    Gatherv_tables_int32 n c s = Gatherv_tables n c s := by
  rw [Gatherv_tables_eq]
  unfold Gatherv_tables_int32
  rw [tables_int32_loop_inv n c s hsize hsum n (le_refl n)]
  refine Prod.ext ?_ ?_ <;>
  · apply List.map_congr_left
    intro i hi
    simp [List.mem_range.mp hi]

/-- While every byte size and every prefix sum fits an `int`, the tables of `Scatterv` on
32-bit cells are the tables on mathematical integers. -/
theorem Scatterv_tables_int32_eq_of_fits (n : Nat) (c : List Int) (s : Int)
    (hsize : ∀ i, i < n → -(2 ^ 31) ≤ c.getD i 0 * s ∧ c.getD i 0 * s < 2 ^ 31)
    (hsum : ∀ i, i < n → -(2 ^ 31) ≤ prefixBytes c s i ∧ prefixBytes c s i < 2 ^ 31) :
    Scatterv_tables_int32 n c s = Scatterv_tables n c s := by
  rw [Scatterv_tables_eq]
  unfold Scatterv_tables_int32
  rw [tables_int32_loop_inv n c s hsize hsum n (le_refl n)]
  refine Prod.ext ?_ ?_ <;>
  · apply List.map_congr_left
    intro i hi
    simp [List.mem_range.mp hi]

/-- The two loops are the same loop: `Scatterv` stores what `Gatherv` stores, wrapped or
not. -/
theorem Scatterv_tables_int32_eq_Gatherv (n : Nat) (c : List Int) (s : Int) :
    Scatterv_tables_int32 n c s = Gatherv_tables_int32 n c s :=
  rfl

/-- Claim C7, as amended: for a count table `c` of length `n` (the group size) and an
element size `s` such that every byte size `c[i]*s` and every prefix sum
`sum over j < i of c[j]*s`, `i` in `[0,n)`, lies in the range of `int`, the byte sizes
and displacements `Gatherv` hands to the variable-length transport satisfy
`allsizes[i] = c[i]*s`, `disps[0] = 0` and `disps[i] = sum over j < i of c[j]*s` for
every `i` in `[0,n)`, and `Scatterv` computes exactly the same two arrays from the same
count table. -/
theorem Gatherv_Scatterv_tables_prefix_sum (n : Nat) (c : List Int) (hc : c.length = n)
    (s : Int)
    (hsize : ∀ i, i < n → -(2 ^ 31) ≤ c.getD i 0 * s ∧ c.getD i 0 * s < 2 ^ 31)
    (hsum : ∀ i, i < n → -(2 ^ 31) ≤ ∑ j in Finset.range i, c.getD j 0 * s
      ∧ ∑ j in Finset.range i, c.getD j 0 * s < 2 ^ 31) :
    (Gatherv_tables_int32 n c s).1.length = n
    ∧ (Gatherv_tables_int32 n c s).2.length = n
    ∧ (∀ i (hi : i < n),
        (Gatherv_tables_int32 n c s).1[i]? = some (c.get ⟨i, by omega⟩ * s))
    ∧ (0 < n → (Gatherv_tables_int32 n c s).2[0]? = some 0)
    ∧ (∀ i, i < n →
        (Gatherv_tables_int32 n c s).2[i]? = some (∑ j in Finset.range i, c.getD j 0 * s))
    ∧ Scatterv_tables_int32 n c s = Gatherv_tables_int32 n c s := by
  rw [Scatterv_tables_int32_eq_of_fits n c s hsize hsum,
    Gatherv_tables_int32_eq_of_fits n c s hsize hsum, Scatterv_tables_eq, Gatherv_tables_eq]
  refine ⟨by simp, by simp, ?_, ?_, ?_, rfl⟩
  · intro i hi
    have hic : i < c.length := by omega
    simp [List.getElem?_range hi, List.getD_eq_getElem?_getD, List.getElem?_eq_getElem hic]
  · intro h0
    simp [List.getElem?_range h0, prefixBytes]
  · intro i hi
    simp [List.getElem?_range hi, prefixBytes]

/-- The count table `[1,2,3]` with element size `8`: sizes `[8,16,24]` and displacements
`[0,8,24]`, in `Gatherv` and in `Scatterv`. -/
theorem Gatherv_Scatterv_tables_prefix_sum_witness :
    ([1, 2, 3] : List Int).length = 3
    ∧ (∀ i, i < 3 → -(2 ^ 31) ≤ ([1, 2, 3] : List Int).getD i 0 * 8
        ∧ ([1, 2, 3] : List Int).getD i 0 * 8 < 2 ^ 31)
    ∧ Gatherv_tables_int32 3 [1, 2, 3] 8 = ([8, 16, 24], [0, 8, 24])
    ∧ Scatterv_tables_int32 3 [1, 2, 3] 8 = Gatherv_tables_int32 3 [1, 2, 3] 8 :=
  ⟨rfl, by decide, by decide,
   (Gatherv_Scatterv_tables_prefix_sum 3 [1, 2, 3] rfl 8 (by decide) (by decide)).2.2.2.2.2⟩

/-- Claim C7 fails as stated: the count table `[2^28, 1]` with element size `8`.  The byte
size of rank 0 is `2^31`, which no `int` holds: `Gatherv` and `Scatterv` hand the
transport the sizes `[-2^31, 8]` and the displacements `[0, -2^31]`, not `[2^31, 8]` and
`[0, 2^31]`. -/
theorem Gatherv_tables_int32_wraps :
    Gatherv_tables_int32 2 [2 ^ 28, 1] 8 = ([-2147483648, 8], [0, -2147483648])
    ∧ Scatterv_tables_int32 2 [2 ^ 28, 1] 8 = ([-2147483648, 8], [0, -2147483648])
    ∧ (Gatherv_tables_int32 2 [2 ^ 28, 1] 8).1[0]? ≠ some ((2 ^ 28 : Int) * 8)
    ∧ (Gatherv_tables_int32 2 [2 ^ 28, 1] 8).2[1]?
        ≠ some (∑ j in Finset.range 1, ([2 ^ 28, 1] : List Int).getD j 0 * 8) := by
  decide

/-! ### Scatterv -/

theorem sum_range_getD (c : List Nat) : (∑ j in Finset.range c.length, c.getD j 0) = c.sum := by
  induction c with
  | nil => simp
  | cons a l ih =>
    rw [List.length_cons, Finset.sum_range_succ', List.sum_cons]
    simp only [List.getD_cons_succ, List.getD_cons_zero, ih]
    omega

theorem getD_map_ofNat (counts : List Nat) (j : Nat) :
    (counts.map Int.ofNat).getD j 0 = ((counts.getD j 0 : Nat) : Int) := by
  simp only [List.getD_eq_getElem?_getD, List.getElem?_map]
  cases counts[j]? <;> rfl

theorem prefixBytes_ofNat (c : List Nat) (datasize : Nat) (i : Nat) :
    prefixBytes (c.map Int.ofNat) (datasize : Int) i
      = ((∑ j in Finset.range i, c.getD j 0 : Nat) : Int) * (datasize : Int) := by
  unfold prefixBytes
  push_cast
  rw [Finset.sum_mul]
  exact Finset.sum_congr rfl (fun j _ => by rw [getD_map_ofNat])

theorem length_readAt {α : Type} (buf : List α) (off len : Nat) (h : off + len ≤ buf.length) :
    (readAt buf off len).length = len := by
  simp only [readAt, List.length_take, List.length_drop]
  omega

/-- The slice of a rank lies inside the root's send vector. -/
theorem slice_fits (c : List Nat) (n : Nat) (hc : c.length = n) (rank : Nat) (hrank : rank < n) :
    (∑ j in Finset.range rank, c.getD j 0) + c.getD rank 0 ≤ c.sum := by
  rw [← sum_range_getD c, hc, ← Finset.sum_range_succ]
  exact Finset.sum_le_sum_of_subset (fun x hx => by
    simp only [Finset.mem_range] at hx ⊢; omega)

theorem Scatterv_recv {α : Type} [Inhabited α] (datasize n : Nat) (hsize : 0 < datasize)
    (root : Nat) (sendvec : Nat → List α) (sendcounts : Nat → List Int)
    (recvvec : Nat → List α) (c : List Nat) (hc : c.length = n)
    (hcounts : sendcounts root = c.map Int.ofNat) (hfit : c.sum ≤ (sendvec root).length)
    (rank : Nat) (hrank : rank < n)
    (hrecv : (recvvec rank).length = 0 ∨ (recvvec rank).length = c.getD rank 0) :
    (Scatterv datasize n sendvec sendcounts recvvec root).recvvec rank
      = readAt (sendvec root) (∑ j in Finset.range rank, c.getD j 0) (c.getD rank 0) := by
  have hne : ¬ ((List.map Int.ofNat c).length = 0) := by
    rw [List.length_map, hc]; omega
  have hslice := slice_fits c n hc rank hrank
  have hrl : (readAt (sendvec root) (∑ j in Finset.range rank, c.getD j 0)
      (c.getD rank 0)).length = c.getD rank 0 := length_readAt _ _ _ (by omega)
  simp only [Scatterv, MPI_Scatterv, BroadCast_buf_ok sizeof_int (by decide), hne, if_false,
    hcounts, Scatterv_tables_eq, getD_map_range n _ rank hrank, getD_map_ofNat,
    prefixBytes_ofNat, cells_mul datasize hsize, Int.toNat_ofNat]
  rw [List.take_of_length_le (le_of_eq hrl)]
  apply writeAt_zero_full
  rw [hrl]
  rcases hrecv with h0 | h1
  · simp [h0, length_resize]
  · split
    · rw [length_resize]
    · exact h1.symm

/-- Claim C5, as amended: for a group of size `n`, a root `root`, the root's send sequence
and the root's count table `c` of length `n` with `sum(c) ≤` the length of the send
sequence, after every rank has called `Scatterv(sendvec, sendcounts, recvvec, root)`, a
rank `i` whose `recvvec` was empty or already had `c[i]` elements on entry holds exactly
the `c[i]` elements of the root's send sequence that start at element offset
`c[0]+...+c[i-1]`. -/
theorem Scatterv_delivers_slice {α : Type} [Inhabited α] (datasize : Nat)
    (hsize : 0 < datasize) (n : Nat) (root : Nat) (hroot : root < n)
    (sendvec : Nat → List α) (sendcounts : Nat → List Int) (recvvec : Nat → List α)
    (c : List Nat) (hc : c.length = n) (hcounts : sendcounts root = c.map Int.ofNat)
    (hfit : c.sum ≤ (sendvec root).length) (i : Nat) (hi : i < n)
    (hrecv : recvvec i = [] ∨ (recvvec i).length = c.getD i 0) :
    (Scatterv datasize n sendvec sendcounts recvvec root).recvvec i
        = readAt (sendvec root) (∑ j in Finset.range i, c.getD j 0) (c.getD i 0)
    ∧ ((Scatterv datasize n sendvec sendcounts recvvec root).recvvec i).length = c.getD i 0 := by
  have hrecv' : (recvvec i).length = 0 ∨ (recvvec i).length = c.getD i 0 :=
    hrecv.imp (fun h => by rw [h]; rfl) id
  have h := Scatterv_recv datasize n hsize root sendvec sendcounts recvvec c hc hcounts
    hfit i hi hrecv'
  refine ⟨h, ?_⟩
  rw [h]
  exact length_readAt _ _ _ (by have := slice_fits c n hc i hi; omega)

/-- Two ranks, root 0 holding `[1,2,3]` and the count table `[1,2]`, rank 1 entering with
an empty receive vector: rank 1 ends with `[2,3]`. -/
theorem Scatterv_delivers_slice_witness :
    (0 < 4 ∧ 0 < 2 ∧ 1 < 2) ∧
    (Scatterv 4 2 (fun k => if k = 0 then [1, 2, 3] else []) (fun _ => [1, 2]) (fun _ => [])
        0).recvvec 1 = [2, 3] :=
  ⟨by decide,
   (Scatterv_delivers_slice 4 (by decide) 2 0 (by decide)
      (fun k => if k = 0 then [1, 2, 3] else []) (fun _ => [1, 2]) (fun _ => [])
      [1, 2] rfl rfl (by decide) 1 (by decide) (Or.inl rfl)).1⟩

/-- Claim C5 fails as stated: two ranks, root 0 holding `[1,2,3]` and the count table
`[1,2]`; rank 1 enters with the receive vector `[9,9,9]`, which is not resized, and
ends with `[2,3,9]`: three elements, not its slice `[2,3]`. -/
theorem Scatterv_keeps_nonempty_recvvec :
    (Scatterv 4 2 (fun k => if k = 0 then [1, 2, 3] else []) (fun _ => [1, 2])
        (fun k => if k = 1 then [9, 9, 9] else []) 0).recvvec 1 = [2, 3, 9]
    ∧ (Scatterv 4 2 (fun k => if k = 0 then [1, 2, 3] else []) (fun _ => [1, 2])
        (fun k => if k = 1 then [9, 9, 9] else []) 0).recvvec 1
        ≠ readAt [1, 2, 3] (∑ j in Finset.range 1, ([1, 2] : List Nat).getD j 0)
            (([1, 2] : List Nat).getD 1 0)
    ∧ ((Scatterv 4 2 (fun k => if k = 0 then [1, 2, 3] else []) (fun _ => [1, 2])
        (fun k => if k = 1 then [9, 9, 9] else []) 0).recvvec 1).length
        ≠ ([1, 2] : List Nat).getD 1 0 := by
  decide

/-! ### Gatherv, and Scatterv after Gatherv -/

theorem foldl_add_getD (c : List Int) (n : Nat) :
    (List.range n).foldl (fun acc i => acc + c.getD i 0) 0 = ∑ i in Finset.range n, c.getD i 0 := by
  induction n with
  | zero => simp
  | succ n ih => rw [List.range_succ, List.foldl_append, ih, Finset.sum_range_succ]; rfl

/-- The count table the root holds after the inner `Gather` of `Gatherv`. -/
theorem Gather_counts_root (n root : Nat) (nsend : Nat → Int) (nsend_all : Nat → List Int) :
    Gather sizeof_int n nsend nsend_all root root = (List.range n).map nsend := by
  simp only [Gather, MPI_Gather, if_true]
  exact MPI_Allgather_scalar sizeof_int n (by decide) nsend _ (length_resize _ _ _)

theorem Gatherv_transfer_root {α : Type} [Inhabited α] (datasize n : Nat) (hsize : 0 < datasize)
    (sendvec recvvec : Nat → List α) (nsend_all : Nat → List Int) (root : Nat)
    (htable : nsend_all root = (List.range n).map (fun i => ((sendvec i).length : Int)))
    (hown : ∀ i, i < n → (nsend_all i).getD i 0 = ((sendvec i).length : Int)) :
    (Gatherv_transfer datasize n sendvec recvvec nsend_all root).recvvec root
      = (List.range n).flatMap sendvec := by
  have hc : ∀ j, j < n → (nsend_all root).getD j 0 = ((sendvec j).length : Int) := by
    intro j hj
    rw [htable, getD_map_range n _ j hj]
  simp only [Gatherv_transfer, MPI_Gatherv, if_true, Gatherv_tables_eq, foldl_add_getD]
  apply placeAll_gatherv datasize n hsize sendvec
  · intro i hi
    rw [getD_map_range n _ i hi, hown i hi]
  · intro i hi
    rw [getD_map_range n _ i hi, hc i hi]
  · intro i hi
    rw [getD_map_range n _ i hi]
    exact prefixBytes_lengths sendvec _ _ n hc i (le_of_lt hi)
  · rw [length_resize, Finset.sum_congr rfl (fun j hj => hc j (Finset.mem_range.mp hj)),
      sum_lengths_eq, Int.toNat_ofNat]

theorem Gatherv_fresh {α : Type} [Inhabited α] (datasize n : Nat) (hsize : 0 < datasize)
    (root : Nat) (hroot : root < n) (sendvec recvvec : Nat → List α) :
    ∃ g, Gatherv datasize n sendvec recvvec (fun _ => []) (fun _ => 0) root = some g
      ∧ g.recvvec root = (List.range n).flatMap sendvec
      ∧ g.nsend_all root = (List.range n).map (fun i => ((sendvec i).length : Int)) := by
  have hall : (List.range n).all (fun _rank => (([] : List Int)).isEmpty) = true := by simp
  have hstart : ∀ r, r < n →
      ((resize ([] : List Int) n 0).set r ((sendvec r).length : Int)).getD r 0
        = ((sendvec r).length : Int) := by
    intro r hr
    simp [List.getD_eq_getElem?_getD, List.getElem?_set, length_resize, hr]
  have htable : Gather sizeof_int n (fun r => ((sendvec r).length : Int))
      (fun r => (resize ([] : List Int) n 0).set r ((sendvec r).length : Int)) root root
      = (List.range n).map (fun i => ((sendvec i).length : Int)) :=
    Gather_counts_root n root _ _
  refine ⟨_, by simp only [Gatherv, hall, if_true]; rfl, ?_, ?_⟩
  · apply Gatherv_transfer_root datasize n hsize sendvec recvvec _ root
    · simpa using htable
    · intro i hi
      by_cases hir : i = root
      · subst hir
        rw [htable, getD_map_range n _ i hi]
      · simp only [Gather, MPI_Gather, hir, if_false]
        simpa using hstart i hi
  · simpa [Gatherv_transfer] using htable

/-- Claim C6: `Scatterv` undoes `Gatherv`: for a group of size `n`, a root `root` and
per-rank contributions `sendvec i`, when all ranks call
`Gatherv(sendvec, g, counts, 0, root)` with an empty count table and then all ranks call
`Scatterv(g, counts, out, root)` with what the gathering left them (at the root: the
gathered sequence and the full count table) and an empty `out`, both calls return and
every rank `i` ends with `out == sendvec i`. -/
theorem Scatterv_undoes_Gatherv {α : Type} [Inhabited α] (datasize : Nat)
    (hsize : 0 < datasize) (n : Nat) (root : Nat) (hroot : root < n)
    (sendvec recvvec : Nat → List α) (i : Nat) (hi : i < n) :
    ∃ g, Gatherv datasize n sendvec recvvec (fun _ => []) (fun _ => 0) root = some g
      ∧ (Scatterv datasize n g.recvvec g.nsend_all (fun _ => []) root).recvvec i
          = sendvec i := by
  obtain ⟨g, hg, hrecv, htable⟩ := Gatherv_fresh datasize n hsize root hroot sendvec recvvec
  refine ⟨g, hg, ?_⟩
  have hlen : ∀ j, j < n →
      ((List.range n).map (fun k => (sendvec k).length)).getD j 0 = (sendvec j).length :=
    fun j hj => getD_map_range_nat n _ j hj
  have hsum : ∀ k, k ≤ n →
      (∑ j in Finset.range k, ((List.range n).map (fun k => (sendvec k).length)).getD j 0)
        = ((List.range k).flatMap sendvec).length := by
    intro k hk
    rw [← sum_lengths_nat]
    exact Finset.sum_congr rfl (fun j hj => hlen j (by have := Finset.mem_range.mp hj; omega))
  rw [Scatterv_recv datasize n hsize root g.recvvec g.nsend_all (fun _ => [])
    ((List.range n).map (fun k => (sendvec k).length)) (by simp)
    (by rw [htable, List.map_map]; rfl)
    (by rw [hrecv, ← sum_range_getD, List.length_map, List.length_range, hsum n (le_refl n)])
    i hi (Or.inl rfl)]
  rw [hrecv, hsum i (le_of_lt hi), hlen i hi]
  exact readAt_flatMap_range sendvec n i hi

/-- Three ranks contributing `[]`, `[1]` and `[2,2]`, gathered at rank 1 and scattered
back: rank 2 ends with `[2,2]`. -/
theorem Scatterv_undoes_Gatherv_witness :
    (0 < 8 ∧ 1 < 3 ∧ 2 < 3) ∧
    (Gatherv 8 3 (fun k => List.replicate k k) (fun _ => [7]) (fun _ => []) (fun _ => 0) 1).map
        (fun g => (Scatterv 8 3 g.recvvec g.nsend_all (fun _ => []) 1).recvvec 2)
      = some [2, 2] := by
  refine ⟨by decide, ?_⟩
  obtain ⟨g, hg, hs⟩ :=
    Scatterv_undoes_Gatherv 8 (by decide) 3 1 (by decide) (fun k => List.replicate k k)
      (fun _ => [7]) 2 (by decide)
  rw [hg, Option.map_some', hs]
  rfl

/-! ### Return code of the sequence broadcast -/

/-- The value `BroadCast` returns, and leaves in `_rc`, is the code of the payload
broadcast, whatever the length broadcast returned. -/
theorem BroadCast_rc_eq {α : Type} [Inhabited α] (sizeofdata root_rank : Nat)
    (rc1 rc2 : Nat → Int) (buf : Nat → List α) (rank : Nat) :
    (BroadCast sizeofdata root_rank rc1 rc2 buf rank)._rc = rc2 rank := rfl

/-- Claim C10 fails on the code: two ranks broadcasting from rank 0; the length broadcast
returns the code `1` at every rank and the payload broadcast returns success; then
`BroadCast` returns success (and leaves success in `_rc`) at both ranks, not the code `1`
of the failed transport call. -/
theorem BroadCast_loses_length_broadcast_code :
    ((1 : Int) ≠ MPI_SUCCESS)
    ∧ (BroadCast 4 0 (fun _ => 1) (fun _ => MPI_SUCCESS)
        (fun k => if k = 0 then [5, 6] else ([] : List Int)) 0)._rc = MPI_SUCCESS
    ∧ (BroadCast 4 0 (fun _ => 1) (fun _ => MPI_SUCCESS)
        (fun k => if k = 0 then [5, 6] else ([] : List Int)) 1)._rc = MPI_SUCCESS := by
  decide

/-! ### Typed point-to-point overloads -/

/-- A byte size that fits an `int` goes through the three conversions unchanged. -/
theorem byte_size_of_fits (n s : Nat) (hfit : n * s < 2 ^ 31) :
    toInt32 (toInt32 (s : Int) * toInt32 (n : Int)) = ((n * s : Nat) : Int) := by
  rcases Nat.eq_zero_or_pos n with hn | hn
  · subst hn
    simp [toInt32]
  rcases Nat.eq_zero_or_pos s with hs | hs
  · subst hs
    simp [toInt32]
  have hn' : n ≤ n * s := Nat.le_mul_of_pos_right n hs
  have hs' : s ≤ n * s := Nat.le_mul_of_pos_left s hn
  rw [toInt32_of_fits (s : Int) (by omega) (by omega),
    toInt32_of_fits (n : Int) (by omega) (by omega)]
  have hprod : ((s : Int) * (n : Int)) = ((n * s : Nat) : Int) := by push_cast; ring
  rw [hprod]
  exact toInt32_of_fits _ (by omega) (by omega)

/-- Claim C11, as amended: for a sequence of `n` elements of an element type of size `s`
with `n * s` below `2^31` (the byte size fits the `int` the primitives take), `ASend`,
`ARecv`, `SetSend` and `SetRecv` forward to `_ASend`, `_ARecv`, `_SetSend` and `_SetRecv`
with the same buffer, remote rank and tag and with the byte size `n * s`, and return the
primitive's result unchanged. -/
theorem typed_overloads_forward_byte_size {α σ : Type}
    (primitive : List α → Int → Nat → Int → σ → σ × Int) (s : Nat) (buf : List α)
    (remote_rank : Nat) (tag : Int) (st : σ) (hfit : buf.length * s < 2 ^ 31) :
    ASend primitive s buf remote_rank tag st
        = primitive buf ((buf.length * s : Nat) : Int) remote_rank tag st
    ∧ ARecv primitive s buf remote_rank tag st
        = primitive buf ((buf.length * s : Nat) : Int) remote_rank tag st
    ∧ SetSend primitive s buf remote_rank tag st
        = primitive buf ((buf.length * s : Nat) : Int) remote_rank tag st
    ∧ SetRecv primitive s buf remote_rank tag st
        = primitive buf ((buf.length * s : Nat) : Int) remote_rank tag st := by
  have h := byte_size_of_fits buf.length s hfit
  have h' : toInt32 (toInt32 (buf.length : Int) * toInt32 (s : Int))
      = ((buf.length * s : Nat) : Int) := by rw [Int.mul_comm]; exact h
  refine ⟨?_, ?_, ?_, ?_⟩
  · simp only [ASend, h]
  · simp only [ARecv, h]
  · simp only [SetSend, h']
  · simp only [SetRecv, h']

/-- Three elements of size 4 sent to rank 1 with tag 5: the primitive is handed 12 bytes. -/
theorem typed_overloads_forward_byte_size_witness :
    ([7, 8, 9] : List Nat).length * 4 < 2 ^ 31
    ∧ ASend reportSize 4 [7, 8, 9] 1 5 () = ((), 12)
    ∧ ARecv reportSize 4 [7, 8, 9] 1 5 () = ((), 12) :=
  ⟨by decide,
   (typed_overloads_forward_byte_size reportSize 4 [7, 8, 9] 1 5 () (by decide)).1,
   (typed_overloads_forward_byte_size reportSize 4 [7, 8, 9] 1 5 () (by decide)).2.1⟩

/-- Claim C11 fails as stated: a sequence of `2^31` one-byte elements.  `ASend` hands the
primitive the byte size `-2^31`, not `2^31 * 1`: the element count does not survive the
conversion to `int`. -/
theorem ASend_wraps_byte_size :
    ASend reportSize 1 (List.replicate (2 ^ 31) 0) 0 0 () = ((), -(2 ^ 31))
    ∧ ASend reportSize 1 (List.replicate (2 ^ 31) 0) 0 0 ()
        ≠ reportSize (List.replicate (2 ^ 31) 0)
            (((List.replicate (2 ^ 31) (0 : Nat)).length * 1 : Nat) : Int) 0 0 () := by
  have h : ASend reportSize 1 (List.replicate (2 ^ 31) 0) 0 0 () = ((), -(2 ^ 31)) := by
    simp only [ASend, reportSize, List.length_replicate, toInt32]
    norm_num
  refine ⟨h, ?_⟩
  rw [h]
  simp only [reportSize, List.length_replicate]
  norm_num

/-! ### MobileObject -/

/-- Claim C12: for every unit state (buffer, owned flag, size) and every record of
earlier releases, `DestroyBuffer` hands the buffer to `delete []` if and only if it is
non-null and owned, leaves the unit in the state (buffer = null, owned = false,
size = 0), and a second `DestroyBuffer`, or the destructor, releases nothing and leaves
that state unchanged; so an owned buffer is released exactly once. -/
theorem DestroyBuffer_releases_once (o : MobileObject) (freed : List Nat) :
    (o.DestroyBuffer freed).2
        = freed ++ (if o._buf ≠ 0 ∧ o._mine = true then [o._buf] else [])
    ∧ (o.DestroyBuffer freed).1 = { _buf := 0, _mine := false, _bsize := 0 }
    ∧ (o.DestroyBuffer freed).1.DestroyBuffer (o.DestroyBuffer freed).2 = o.DestroyBuffer freed
    ∧ (o.DestroyBuffer freed).1.destroy (o.DestroyBuffer freed).2 = o.DestroyBuffer freed
    ∧ ((o.DestroyBuffer freed).1.destroy (o.DestroyBuffer freed).2).2.length
        = freed.length + (if o._buf ≠ 0 ∧ o._mine = true then 1 else 0) := by
  refine ⟨?_, rfl, ?_, ?_, ?_⟩
  · simp only [MobileObject.DestroyBuffer]
    split <;> simp
  · simp [MobileObject.DestroyBuffer]
  · simp [MobileObject.destroy, MobileObject.DestroyBuffer]
  · simp only [MobileObject.destroy, MobileObject.DestroyBuffer]
    by_cases h : o._buf ≠ 0 ∧ o._mine = true <;> simp [h]

/-! ### Request ledger -/

/-- Claim C13: for every state of the request ledger, `NOpenRequests()` returns the length
of the pending-send request list plus the length of the pending-receive request list,
and leaves the ledger as it was. -/
theorem NOpenRequests_counts_both_lists (c : RequestLedger) :
    (NOpenRequests c).2 = (c._send_requests.length : Int) + (c._recv_requests.length : Int)
    ∧ (NOpenRequests c).1 = c := by
  simp [NOpenRequests]

/-! ### AllGatherv with a caller-side count table -/

theorem AllGatherv3_transfer_eq {α : Type} [Inhabited α] (datasize n : Nat) (hn : 1 ≤ n)
    (sendvec recvvec : Nat → List α) (nsend_all : Nat → List Int) (calls : List Collective) :
    ∃ res, AllGatherv3_transfer datasize n sendvec recvvec nsend_all calls = some res
      ∧ res.nsend_all = nsend_all
      ∧ res.calls = calls ++ [Collective.AllReduce, Collective._AllGatherv] :=
  ⟨_, by simp only [AllGatherv3_transfer, AllReduce_sum_eq n hn, Option.map_some']; rfl,
    rfl, rfl⟩

/-- Claim C14: for a group of size `n`, when the count table `nsend_all` is empty on entry
(at the ranks of the group) then after `AllGatherv(sendvec, recvvec, nsend_all)` it has
length `n` with `nsend_all[i]` equal to the send length of rank `i`, at every rank; when
it is non-empty on entry it is left unchanged, whatever it holds, and the body does not
enter the count exchange (`AllGather`). -/
theorem AllGatherv3_count_table {α : Type} [Inhabited α] (datasize n : Nat)
    (sendvec recvvec : Nat → List α) (nsend_all : Nat → List Int) (rank : Nat)
    (hrank : rank < n) :
    ((∀ r, r < n → nsend_all r = []) →
      ∃ res, AllGatherv3 datasize n sendvec recvvec nsend_all = some res
        ∧ (res.nsend_all rank).length = n
        ∧ (∀ i, i < n → (res.nsend_all rank)[i]? = some ((sendvec i).length : Int))
        ∧ res.calls
            = [Collective.AllGather, Collective.AllReduce, Collective._AllGatherv])
    ∧ ((∀ r, r < n → nsend_all r ≠ []) →
      ∃ res, AllGatherv3 datasize n sendvec recvvec nsend_all = some res
        ∧ res.nsend_all rank = nsend_all rank
        ∧ Collective.AllGather ∉ res.calls
        ∧ res.calls = [Collective.AllReduce, Collective._AllGatherv]) := by
  have hn : 1 ≤ n := by omega
  constructor
  · intro hempty
    have hall : (List.range n).all (fun r => (nsend_all r).isEmpty) = true := by
      simp only [List.all_eq_true, List.mem_range]
      intro r hr
      rw [hempty r hr]; rfl
    obtain ⟨res, hres, htab, hcalls⟩ := AllGatherv3_transfer_eq datasize n hn sendvec recvvec
      (AllGather sizeof_int n (fun r => ((sendvec r).length : Int))
        (fun r => resize (nsend_all r) n 0)) [Collective.AllGather]
    refine ⟨res, by simp only [AllGatherv3, hall, if_true]; exact hres, ?_, ?_, by
      rw [hcalls]; rfl⟩
    · rw [htab, AllGather_eq sizeof_int n (by decide)]
      simp
    · intro i hi
      rw [htab, AllGather_eq sizeof_int n (by decide)]
      simp [List.getElem?_range hi]
  · intro hfull
    have hnot : ¬ ((List.range n).all (fun r => (nsend_all r).isEmpty) = true) := by
      simp only [List.all_eq_true, List.mem_range, not_forall]
      refine ⟨rank, hrank, ?_⟩
      simpa [List.isEmpty_iff] using hfull rank hrank
    have hall : (List.range n).all (fun r => !(nsend_all r).isEmpty) = true := by
      simp only [List.all_eq_true, List.mem_range]
      intro r hr
      simpa [List.isEmpty_iff] using hfull r hr
    obtain ⟨res, hres, htab, hcalls⟩ := AllGatherv3_transfer_eq datasize n hn sendvec recvvec
      nsend_all []
    refine ⟨res, by simp only [AllGatherv3, hnot, hall, if_true, if_false]; exact hres, by
      rw [htab], by rw [hcalls]; decide, by rw [hcalls]; rfl⟩

/-- Three ranks contributing `[]`, `[1]` and `[2,2]`: from empty tables rank 2 ends with
the table `[0,1,2]`; a table `[5,5,5]` given by the callers is left as it was. -/
theorem AllGatherv3_count_table_witness :
    (2 < 3)
    ∧ (AllGatherv3 8 3 (fun k => List.replicate k k) (fun _ => []) (fun _ => [])).map
        (fun res => res.nsend_all 2) = some [0, 1, 2]
    ∧ (AllGatherv3 8 3 (fun k => List.replicate k k) (fun _ => []) (fun _ => [5, 5, 5])).map
        (fun res => (res.nsend_all 2, res.calls))
        = some ([5, 5, 5], [Collective.AllReduce, Collective._AllGatherv]) := by
  have h := AllGatherv3_count_table 8 3 (fun k => List.replicate k k) (fun _ => [])
  refine ⟨by decide, ?_, ?_⟩
  · obtain ⟨res, hres, hlen, hget, _⟩ := (h (fun _ => []) 2 (by decide)).1 (fun _ _ => rfl)
    rw [hres, Option.map_some', Option.some.injEq]
    apply List.ext_getElem?
    intro i
    by_cases hi : i < 3
    · rw [hget i hi]
      interval_cases i <;> rfl
    · rw [List.getElem?_eq_none (by omega), List.getElem?_eq_none (by simp; omega)]
  · obtain ⟨res, hres, htab, _, hcalls⟩ :=
      (h (fun _ => [5, 5, 5]) 2 (by decide)).2 (fun _ _ => by simp)
    rw [hres, Option.map_some', htab, hcalls]

/-! ### GatherMO -/

/-- Claim C15: for a group of size `n`, a root `root`, every prior content of `recvvec`
and whatever the native gather does through the slots it is handed, after
`GatherMO(sendval, recvvec, root)` the receive sequence has length `n` on the root and
length `0` on every other rank, and the native gather was handed exactly `n` receive
slots on the root and none elsewhere. -/
theorem GatherMO_materialized_on_root_only {α : Type} [Inhabited α]
    (native : (Nat → α) → (Nat → List Nat) → Int → Nat → Nat → GatherMOEffect α)
    (n : Nat) (sendval : Nat → α) (recvvec : Nat → List α) (root : Nat) (hroot : root < n)
    (rank : Nat) (hrank : rank < n) :
    ((GatherMO native n sendval recvvec root).recvvec rank).length
        = (if rank = root then n else 0)
    ∧ ((GatherMO native n sendval recvvec root).recv_v rank).length
        = (if rank = root then n else 0)
    ∧ ((GatherMO native n sendval recvvec root).recv_v rank)
        = (if rank = root then List.range n else []) := by
  by_cases h : rank = root
  · simp [GatherMO, h, length_resize]
  · simp [GatherMO, h, length_resize, resize]

/-- Three ranks gathering at rank 1, every rank entering with a receive vector of two
elements, over a native gather that stores `7` through every slot: rank 1 ends with
three elements, ranks 0 and 2 with none. -/
theorem GatherMO_materialized_on_root_only_witness :
    (1 < 3 ∧ 0 < 3 ∧ 2 < 3)
    ∧ (GatherMO (fun _ _ _ _ _ => { sendval := 0, slot := fun _ _ => 7, rc := 0 }) 3
        (fun k => k) (fun _ => [4, 4]) 1).recvvec 1 = [7, 7, 7]
    ∧ ((GatherMO (fun _ _ _ _ _ => { sendval := 0, slot := fun _ _ => 7, rc := 0 }) 3
        (fun k => k) (fun _ => [4, 4]) 1).recvvec 0).length = 0
    ∧ ((GatherMO (fun _ _ _ _ _ => { sendval := 0, slot := fun _ _ => 7, rc := 0 }) 3
        (fun k => k) (fun _ => [4, 4]) 1).recvvec 2).length = 0 :=
  ⟨by decide, by decide,
   (GatherMO_materialized_on_root_only
      (fun _ _ _ _ _ => { sendval := 0, slot := fun _ _ => 7, rc := 0 }) 3
      (fun k => k) (fun _ => [4, 4]) 1 (by decide) 0 (by decide)).1,
   (GatherMO_materialized_on_root_only
      (fun _ _ _ _ _ => { sendval := 0, slot := fun _ _ => 7, rc := 0 }) 3
      (fun k => k) (fun _ => [4, 4]) 1 (by decide) 2 (by decide)).1⟩

end Comm

namespace Util

/-! ### centerString -/

theorem toSize_of_fits (x : Int) (hlo : 0 ≤ x) (hhi : x < 2 ^ 64) : toSize x = x := by
  unfold toSize
  omega

theorem toUInt32_of_fits (x : Int) (hlo : 0 ≤ x) (hhi : x < 2 ^ 32) : toUInt32 x = x := by
  unfold toUInt32
  omega

theorem centerString_eq (m : MenuObject) (hborder : m._external_border.length = 1)
    (hwidth : m._menu_width < 2 ^ 32) (message : List Char)
    (hmsg : message.length + 4 ≤ m._menu_width) :
    m.centerString message
      = some (m._external_border ++ [' ']
          ++ List.replicate ((m._menu_width - 4 - message.length) / 2) ' '
          ++ message
          ++ List.replicate
              (m._menu_width - 4 - message.length - (m._menu_width - 4 - message.length) / 2) ' '
          ++ [' '] ++ m._external_border) := by
  have h1 : toSize (((1 : Nat) : Int) + 1) = 2 := by decide
  have h2 : toSize ((m._menu_width : Int) - 2 * 2) = (m._menu_width : Int) - 4 := by
    rw [toSize_of_fits _ (by omega) (by omega)]; omega
  have h3 : toInt32 (toSize ((m._menu_width : Int) - 4 - (message.length : Int)) / 2)
      = (((m._menu_width - 4 - message.length) / 2 : Nat) : Int) := by
    rw [toSize_of_fits _ (by omega) (by omega), Comm.toInt32_of_fits _ (by omega) (by omega)]
    omega
  have h4 : toInt32 (toSize ((m._menu_width : Int)
      - (((1 + 1 + (m._menu_width - 4 - message.length) / 2 + message.length : Nat) : Int) + 2)))
      = ((m._menu_width - 4 - message.length
          - (m._menu_width - 4 - message.length) / 2 : Nat) : Int) := by
    rw [toSize_of_fits _ (by omega) (by omega), Comm.toInt32_of_fits _ (by omega) (by omega)]
    omega
  simp only [MenuObject.centerString, hborder, h1, h2, h3, Int.toNat_ofNat, List.length_append,
    List.length_replicate, List.length_singleton, h4]
  rw [if_neg (by omega)]

/-- Claim C18: for a menu with a one-character external border and a width `W >= 4` (the
width is 80 or a value given to `SetMenuWidth(unsigned int)`, so it is below `2^32`), and
a message of length at most `W - 4`, `centerString(message)` returns, and what it returns
has exactly `W` characters and is border, space, `floor((W-4-|message|)/2)` spaces, the
message, padding spaces, space, border. -/
theorem centerString_width (m : MenuObject) (hborder : m._external_border.length = 1)
    (hW : 4 ≤ m._menu_width) (hwidth : m._menu_width < 2 ^ 32) (message : List Char)
    (hmsg : message.length ≤ m._menu_width - 4) :
    ∃ out padding, m.centerString message = some out
      ∧ out.length = m._menu_width
      ∧ out = m._external_border ++ [' ']
          ++ List.replicate ((m._menu_width - 4 - message.length) / 2) ' '
          ++ message ++ List.replicate padding ' ' ++ [' '] ++ m._external_border := by
  refine ⟨_, _, centerString_eq m hborder hwidth message (by omega), ?_, rfl⟩
  simp only [List.length_append, List.length_replicate, List.length_singleton, hborder]
  omega

set_option maxRecDepth 4000 in
/-- The default menu, width 80: the message `abc` is centred in 80 characters, 36 spaces
before it and 37 after it inside the border. -/
theorem centerString_width_witness :
    (MenuObject.new._external_border.length = 1 ∧ 4 ≤ MenuObject.new._menu_width
      ∧ MenuObject.new._menu_width < 2 ^ 32 ∧ ['a', 'b', 'c'].length ≤ 80 - 4)
    ∧ MenuObject.new.centerString ['a', 'b', 'c']
        = some (['*', ' '] ++ List.replicate 36 ' ' ++ ['a', 'b', 'c']
            ++ List.replicate 37 ' ' ++ [' ', '*'])
    ∧ (∃ out padding, MenuObject.new.centerString ['a', 'b', 'c'] = some out
        ∧ out.length = 80
        ∧ out = ['*'] ++ [' '] ++ List.replicate ((80 - 4 - 3) / 2) ' '
            ++ ['a', 'b', 'c'] ++ List.replicate padding ' ' ++ [' '] ++ ['*']) :=
  ⟨by decide, rfl,
   centerString_width MenuObject.new rfl (by decide) (by decide) ['a', 'b', 'c'] (by decide)⟩


/-! ### Column layout of `menuString` -/

/-! ### Column layout -/

theorem ncolLoop_spec (L npp : Int) (hL : 1 ≤ L) :
    ∀ (fuel : Nat) (c : Int), 1 ≤ c → (npp - L * c).toNat + 1 ≤ fuel →
      (∀ k, 1 ≤ k → k < c → L * k < npp) →
      ∃ ncol, ncolLoop L npp fuel c = some ncol ∧ c ≤ ncol ∧ npp ≤ L * ncol
        ∧ ∀ k, 1 ≤ k → npp ≤ L * k → ncol ≤ k := by
  intro fuel
  induction fuel with
  | zero => intro c _ h; omega
  | succ fuel ih =>
    intro c hc hfuel hbelow
    by_cases h : L * c < npp
    · have hmul : L * (c + 1) = L * c + L := by ring
      obtain ⟨ncol, hres, hle, hup, hleast⟩ := ih (c + 1) (by omega)
        (by rw [hmul]; omega)
        (by
          intro k hk1 hk
          by_cases hkc : k = c
          · rw [hkc]; exact h
          · exact hbelow k hk1 (by omega))
      exact ⟨ncol, by simp only [ncolLoop, h, if_true]; exact hres, by omega, hup, hleast⟩
    · refine ⟨c, by simp only [ncolLoop, h, if_false], le_refl c, by omega, ?_⟩
      intro k hk1 hk
      by_contra hlt
      have := hbelow k hk1 (by omega)
      omega

/-- The column loop ends, with the least column count that holds the parameters, and it
needs no more fuel than the embedding gives it. -/
theorem columnCount_spec (L npp : Int) (hL : 1 ≤ L) :
    ∃ ncol, columnCount L npp = some ncol ∧ 1 ≤ ncol ∧ npp ≤ L * ncol
      ∧ (∀ k, 1 ≤ k → npp ≤ L * k → ncol ≤ k)
      ∧ ∀ fuel, npp.toNat + 1 ≤ fuel → ncolLoop L npp fuel 1 = some ncol := by
  have hstart : ∀ fuel, npp.toNat + 1 ≤ fuel → (npp - L * 1).toNat + 1 ≤ fuel := by
    intro fuel h; omega
  obtain ⟨ncol, hres, hle, hup, hleast⟩ :=
    ncolLoop_spec L npp hL (npp.toNat + 1) 1 (le_refl 1) (hstart _ (le_refl _))
      (fun k h1 h2 => by omega)
  refine ⟨ncol, hres, hle, hup, hleast, ?_⟩
  intro fuel hfuel
  obtain ⟨ncol', hres', hle', hup', hleast'⟩ :=
    ncolLoop_spec L npp hL fuel 1 (le_refl 1) (hstart _ hfuel) (fun k h1 h2 => by omega)
  have h1 := hleast ncol' hle' hup'
  have h2 := hleast' ncol hle hup
  rw [hres', show ncol' = ncol by omega]

theorem ncolLoop_fuel_mono (L npp : Int) :
    ∀ (fuel : Nat) (c r : Int), ncolLoop L npp fuel c = some r →
      ∀ more : Nat, ncolLoop L npp (fuel + more) c = some r := by
  intro fuel
  induction fuel with
  | zero => intro c r h; simp [ncolLoop] at h
  | succ fuel ih =>
    intro c r h more
    rw [Nat.add_right_comm]
    by_cases hc : L * c < npp
    · simp only [ncolLoop, hc, if_true] at h ⊢
      exact ih _ _ h more
    · simp only [ncolLoop, hc, if_false] at h ⊢
      exact h

theorem ncolLoop_never (L npp : Int) (hL : L ≤ 0) :
    ∀ (fuel : Nat) (c : Int), 1 ≤ c → L * c < npp → ncolLoop L npp fuel c = none := by
  intro fuel
  induction fuel with
  | zero => intro c _ _; rfl
  | succ fuel ih =>
    intro c hc hlt
    have hmul : L * (c + 1) = L * c + L := by ring
    simp only [ncolLoop, hlt, if_true]
    exact ih (c + 1) (by omega) (by omega)

/-- The fuel of `columnCount` is enough: a column loop that ends at all, ends within it. -/
theorem ncolLoop_enough_fuel (L npp : Int) (fuel : Nat) (ncol : Int)
    (h : ncolLoop L npp fuel 1 = some ncol) : columnCount L npp = some ncol := by
  by_cases hL : 1 ≤ L
  · obtain ⟨ncol0, h0, _, _, _, hall⟩ := columnCount_spec L npp hL
    have h1 := ncolLoop_fuel_mono L npp fuel 1 ncol h (npp.toNat + 1)
    have h2 := hall (fuel + (npp.toNat + 1)) (by omega)
    rw [h1] at h2
    rw [h0, ← h2]
  · by_cases hlt : L * 1 < npp
    · rw [ncolLoop_never L npp (by omega) fuel 1 (le_refl 1) hlt] at h
      exact absurd h (by simp)
    · cases fuel with
      | zero => simp [ncolLoop] at h
      | succ fuel =>
        simp only [ncolLoop, hlt, if_false] at h
        simp only [columnCount, ncolLoop, hlt, if_false]
        exact h

theorem length_npercolLoop (lpc : Int) (k : Nat) (r : Int) :
    (npercolLoop lpc k r).length = k := by
  induction k generalizing r with
  | zero => rfl
  | succ k ih => simp [npercolLoop, ih]

theorem mem_npercolLoop (lpc : Int) (hlpc : 0 ≤ lpc) (k : Nat) (r : Int) (hr : 0 ≤ r) :
    ∀ x ∈ npercolLoop lpc k r, 0 ≤ x ∧ x ≤ lpc ∧ x ≤ r := by
  induction k generalizing r with
  | zero => intro x hx; simp [npercolLoop] at hx
  | succ k ih =>
    intro x hx
    simp only [npercolLoop, List.mem_cons] at hx
    rcases hx with rfl | hx
    · split <;> omega
    · have := ih (r - (if r < lpc then r else lpc)) (by split <;> omega) x hx
      split at this <;> omega

theorem pairwise_npercolLoop (lpc : Int) (hlpc : 0 ≤ lpc) (k : Nat) (r : Int) (hr : 0 ≤ r) :
    List.Pairwise (fun a b => a ≥ b) (npercolLoop lpc k r) := by
  induction k generalizing r with
  | zero => simp [npercolLoop]
  | succ k ih =>
    simp only [npercolLoop, List.pairwise_cons]
    refine ⟨?_, ih _ (by split <;> omega)⟩
    intro x hx
    have := mem_npercolLoop lpc hlpc k _ (by split <;> omega) x hx
    by_cases hrl : r < lpc <;> simp only [hrl, if_true, if_false] at this ⊢ <;> omega

theorem sum_npercolLoop (lpc : Int) (hlpc : 0 ≤ lpc) (k : Nat) (r : Int) (hr : 0 ≤ r) :
    (npercolLoop lpc k r).sum = min r ((k : Int) * lpc) := by
  induction k generalizing r with
  | zero => simp [npercolLoop]; omega
  | succ k ih =>
    have hk : 0 ≤ (k : Int) * lpc := mul_nonneg (by omega) hlpc
    have hmul : ((k + 1 : Nat) : Int) * lpc = (k : Int) * lpc + lpc := by push_cast; ring
    simp only [npercolLoop, List.sum_cons]
    rw [ih _ (by split <;> omega), hmul]
    split <;> omega

theorem getD_npercolLoop (lpc : Int) (hlpc : 0 ≤ lpc) (k : Nat) (r : Int) (hr : 0 ≤ r)
    (j : Nat) (hj : j < k) :
    (npercolLoop lpc k r).getD j 0 = min (max (r - (j : Int) * lpc) 0) lpc := by
  induction k generalizing r j with
  | zero => omega
  | succ k ih =>
    cases j with
    | zero => simp only [npercolLoop, List.getD_cons_zero]; split <;> omega
    | succ j =>
      have hjk : 0 ≤ (j : Int) * lpc := mul_nonneg (by omega) hlpc
      have hmul : ((j + 1 : Nat) : Int) * lpc = (j : Int) * lpc + lpc := by push_cast; ring
      simp only [npercolLoop, List.getD_cons_succ]
      rw [ih _ (by split <;> omega) j (by omega), hmul]
      split <;> omega

theorem paramIndex_npercolLoop (lpc : Int) (hlpc : 0 ≤ lpc) (k : Nat) (r : Int) (hr : 0 ≤ r)
    (line_count : Int) (cc : Nat) (hcc : cc ≤ k) :
    paramIndex (npercolLoop lpc k r) line_count cc
      = line_count - 1 + min r ((cc : Int) * lpc) := by
  induction cc with
  | zero => simp [paramIndex]; omega
  | succ cc ih =>
    have hk : 0 ≤ (cc : Int) * lpc := mul_nonneg (by omega) hlpc
    have hmul : ((cc + 1 : Nat) : Int) * lpc = (cc : Int) * lpc + lpc := by push_cast; ring
    have ih' := ih (by omega)
    unfold paramIndex at ih' ⊢
    rw [List.range_succ, List.foldl_append, ih']
    simp only [List.foldl_cons, List.foldl_nil]
    rw [getD_npercolLoop lpc hlpc k r hr cc (by omega), hmul]
    omega

theorem lines_per_col_spec (npp ncol : Int) (hnpp : 0 ≤ npp) (hncol : 1 ≤ ncol) :
    1 ≤ (npp + ncol).tdiv ncol ∧ npp < ncol * (npp + ncol).tdiv ncol := by
  rw [Int.tdiv_eq_ediv (by omega) (by omega), Int.add_ediv_of_dvd_right (dvd_refl ncol),
    Int.ediv_self (by omega)]
  have h1 := Int.emod_add_ediv npp ncol
  have h2 := Int.emod_lt_of_pos npp (show 0 < ncol by omega)
  have h3 := Int.emod_nonneg npp (show ncol ≠ 0 by omega)
  have h4 : 0 ≤ npp / ncol := Int.ediv_nonneg hnpp (by omega)
  have hmul : ncol * (npp / ncol + 1) = ncol * (npp / ncol) + ncol := by ring
  rw [hmul]
  constructor <;> omega

/-- Claim C17: for every parameter count `npp >= 0` and column length `L >= 1`, the
column-count loop of `menuString` ends (with the fuel of the embedding and with any
larger fuel) with the least `ncol >= 1` such that `L*ncol >= npp`; the per-column counts
`npercol` are `ncol` in number, non-increasing and sum to `npp`; and over the lines
`1..npercol[0]` and the columns `0..ncol-1` each parameter index in `[0, npp)` is the
`param_index` of exactly one cell. -/
theorem menu_columns_show_each_parameter_once (npp L : Int) (hnpp : 0 ≤ npp) (hL : 1 ≤ L) :
    ∃ ncol, columnCount L npp = some ncol
      ∧ (∀ fuel, npp.toNat + 1 ≤ fuel → ncolLoop L npp fuel 1 = some ncol)
      ∧ 1 ≤ ncol ∧ npp ≤ L * ncol ∧ (∀ k, 1 ≤ k → npp ≤ L * k → ncol ≤ k)
      ∧ ((columnCounts npp ncol).length : Int) = ncol
      ∧ List.Pairwise (fun a b => a ≥ b) (columnCounts npp ncol)
      ∧ (columnCounts npp ncol).sum = npp
      ∧ ∀ i : Int, 0 ≤ i → i < npp →
          ∃! cell : Int × Nat,
            1 ≤ cell.1 ∧ cell.1 ≤ (columnCounts npp ncol).getD 0 0 ∧ (cell.2 : Int) < ncol
              ∧ paramIndex (columnCounts npp ncol) cell.1 cell.2 = i := by
  obtain ⟨ncol, hres, hle, hup, hleast, hfuel⟩ := columnCount_spec L npp hL
  obtain ⟨hlpc1, hlpc2⟩ := lines_per_col_spec npp ncol hnpp hle
  have hlpc0 : 0 ≤ (npp + ncol).tdiv ncol := by omega
  have hcast : ((ncol.toNat : Nat) : Int) = ncol := Int.toNat_of_nonneg (by omega)
  have hk : 0 < ncol.toNat := by omega
  refine ⟨ncol, hres, hfuel, hle, hup, hleast, ?_, ?_, ?_, ?_⟩
  · rw [columnCounts, length_npercolLoop, hcast]
  · exact pairwise_npercolLoop _ hlpc0 _ _ hnpp
  · rw [columnCounts, sum_npercolLoop _ hlpc0 _ _ hnpp, hcast]
    omega
  · intro i hi0 hi
    have hfirst : (columnCounts npp ncol).getD 0 0 = min npp ((npp + ncol).tdiv ncol) := by
      rw [columnCounts, getD_npercolLoop _ hlpc0 _ _ hnpp 0 hk]
      simp only [Nat.cast_zero, zero_mul, sub_zero]
      omega
    have hidx : ∀ (line : Int) (cc : Nat), (cc : Int) < ncol →
        paramIndex (columnCounts npp ncol) line cc
          = line - 1 + min npp ((cc : Int) * (npp + ncol).tdiv ncol) := by
      intro line cc hcc
      rw [columnCounts, paramIndex_npercolLoop _ hlpc0 _ _ hnpp line cc (by omega)]
    generalize (npp + ncol).tdiv ncol = lpc at hlpc1 hlpc2 hlpc0 hfirst hidx
    have hq0 : 0 ≤ i / lpc := Int.ediv_nonneg hi0 hlpc0
    have hqcast : (((i / lpc).toNat : Nat) : Int) = i / lpc := Int.toNat_of_nonneg hq0
    have hdm := Int.emod_add_ediv i lpc
    have hm1 := Int.emod_lt_of_pos i (show 0 < lpc by omega)
    have hm0 := Int.emod_nonneg i (show lpc ≠ 0 by omega)
    have hqlt : i / lpc < ncol := Int.ediv_lt_of_lt_mul (by omega) (by omega)
    have hcomm : i / lpc * lpc = lpc * (i / lpc) := Int.mul_comm _ _
    have hj0 : 0 ≤ lpc * (i / lpc) := mul_nonneg hlpc0 hq0
    refine ⟨(i % lpc + 1, (i / lpc).toNat), ⟨by simp only []; omega, ?_, ?_, ?_⟩, ?_⟩
    · simp only []
      rw [hfirst]
      omega
    · simp only []
      omega
    · simp only []
      rw [hidx _ _ (by omega), hqcast, hcomm]
      omega
    · rintro ⟨line, cc⟩ ⟨h1, h2, h3, h4⟩
      simp only [] at h1 h2 h3 h4
      rw [hfirst] at h2
      rw [hidx line cc h3] at h4
      have ht0 : 0 ≤ (cc : Int) * lpc := mul_nonneg (by omega) hlpc0
      have huniq := (Int.ediv_emod_unique (a := i) (b := lpc) (r := line - 1) (q := (cc : Int))
        (by omega)).mpr ⟨by rw [Int.mul_comm]; omega, by omega, by omega⟩
      refine Prod.ext ?_ ?_
      · simp only []
        omega
      · simp only []
        omega

/-- Thirteen parameters with column length 12: two columns, of seven and six lines. -/
theorem menu_columns_show_each_parameter_once_witness :
    (0 : Int) ≤ 13 ∧ (1 : Int) ≤ 12 ∧ columnCount 12 13 = some 2 ∧ columnCounts 13 2 = [7, 6]
      ∧ ∃ ncol, columnCount 12 13 = some ncol
        ∧ (∀ fuel, (13 : Int).toNat + 1 ≤ fuel → ncolLoop 12 13 fuel 1 = some ncol)
        ∧ 1 ≤ ncol ∧ 13 ≤ 12 * ncol ∧ (∀ k, 1 ≤ k → 13 ≤ 12 * k → ncol ≤ k)
        ∧ ((columnCounts 13 ncol).length : Int) = ncol
        ∧ List.Pairwise (fun a b => a ≥ b) (columnCounts 13 ncol)
        ∧ (columnCounts 13 ncol).sum = 13
        ∧ ∀ i : Int, 0 ≤ i → i < 13 →
            ∃! cell : Int × Nat,
              1 ≤ cell.1 ∧ cell.1 ≤ (columnCounts 13 ncol).getD 0 0 ∧ (cell.2 : Int) < ncol
                ∧ paramIndex (columnCounts 13 ncol) cell.1 cell.2 = i :=
  ⟨by decide, by decide, by decide, by decide,
    menu_columns_show_each_parameter_once 13 12 (by decide) (by decide)⟩

/-! ### Parameter lines of `menuString` -/

/-! ### Menu lines -/

theorem length_setw (w : Int) (s : List Char) : (setw w s).length = max w.toNat s.length := by
  simp only [setw, List.length_append, List.length_replicate]
  omega

theorem truncateField_spec (field_size : Int) (hfs : 1 ≤ field_size) (s : List Char) :
    ∃ t, truncateField field_size s = some t ∧ (t.length : Int) ≤ field_size := by
  by_cases h : (s.length : Int) > field_size
  · refine ⟨'*' :: s.drop ((s.length : Int) - field_size + 1).toNat, ?_, ?_⟩
    · simp only [truncateField, h, if_true]
      rw [if_neg (by omega)]
    · simp only [List.length_cons, List.length_drop]
      omega
  · exact ⟨s, by simp only [truncateField, h, if_false], by omega⟩

set_option maxRecDepth 8000 in
theorem length_toDigits_le (k : Nat) (hk : k < 100) : (Nat.toDigits 10 k).length ≤ 2 := by
  revert k
  decide

theorem paramIndex_nonneg (npercol : List Int) (hpos : ∀ x ∈ npercol, 0 ≤ x) (line_count : Int)
    (hline : 1 ≤ line_count) (cc : Nat) : 0 ≤ paramIndex npercol line_count cc := by
  induction cc with
  | zero => simp [paramIndex]; omega
  | succ cc ih =>
    unfold paramIndex at ih ⊢
    rw [List.range_succ, List.foldl_append]
    simp only [List.foldl_cons, List.foldl_nil]
    have : 0 ≤ npercol.getD cc 0 := by
      rw [List.getD_eq_getElem?_getD]
      cases h : npercol[cc]? with
      | none => simp
      | some x => exact hpos x (List.getElem?_mem h)
    omega

/-- Every cell of a menu line has the same width, whatever the key and the value. -/
theorem menuCell_length (m : MenuObject) (params : List (List Char × List Char))
    (lay : MenuLayout) (hfs1 : 1 ≤ lay.field_size) (hfs2 : lay.field_size < 2 ^ 31)
    (hnum : params.length < 100) (line_count : Int) (cc : Nat)
    (hidx : 0 ≤ paramIndex lay.npercol line_count cc) (extraspace : Int) :
    ∃ t, menuCell m params lay line_count cc extraspace = some t
      ∧ t.length = 7 + 2 * lay.field_size.toNat + (if extraspace > 0 then 1 else 0)
          + (if (cc : Int) = lay.ncol - 1 then 0 else m._vertical_rule.length + 2) := by
  have hw : toInt32 lay.field_size = lay.field_size :=
    Comm.toInt32_of_fits _ (by omega) (by omega)
  have hextra : ∀ e : Int, (if e > 0 then [' '] else ([] : List Char)).length
      = (if e > 0 then 1 else 0) := by
    intro e; split <;> rfl
  have hrule : (if (cc : Int) = lay.ncol - 1 then ([] : List Char)
      else [' '] ++ m._vertical_rule ++ [' ']).length
      = (if (cc : Int) = lay.ncol - 1 then 0 else m._vertical_rule.length + 2) := by
    split
    · rfl
    · simp only [List.length_append, List.length_singleton]; omega
  by_cases hshown : paramIndex lay.npercol line_count cc < (params.length : Int)
  · obtain ⟨key, hkey, hklen⟩ := truncateField_spec lay.field_size hfs1
      (params.getD (paramIndex lay.npercol line_count cc).toNat ([], [])).1
    obtain ⟨value, hvalue, hvlen⟩ := truncateField_spec lay.field_size hfs1
      (params.getD (paramIndex lay.npercol line_count cc).toNat ([], [])).2
    have hnumber : (toUInt32 (paramIndex lay.npercol line_count cc + 1)).toNat < 100 := by
      rw [toUInt32_of_fits _ (by omega) (by omega)]; omega
    have hdig := length_toDigits_le _ hnumber
    simp only [menuCell, hshown, if_true, hkey, hvalue]
    refine ⟨_, rfl, ?_⟩
    simp only [List.length_append, length_setw, hw, hextra, hrule, List.length_cons,
      List.length_nil]
    omega
  · simp only [menuCell, hshown, if_false]
    refine ⟨_, rfl, ?_⟩
    simp only [List.length_append, length_setw, hw, hextra, hrule, List.length_nil]
    omega

/-- The columns of a menu line, from column `cc` to the last one: the space counter goes
down by one per column and the text has the width of the cells, the blanks taken from
the counter and the rules between the columns. -/
theorem menuColumns_length (cell : Nat → Int → Option (List Char)) (w sep ncol : Nat)
    (hcell : ∀ cc e, ∃ t, cell cc e = some t
      ∧ t.length = w + (if e > 0 then 1 else 0) + (if cc + 1 = ncol then 0 else sep)) :
    ∀ (k cc : Nat) (e : Int), cc + k = ncol →
      ∃ r, menuColumns cell cc k e = some r ∧ r.2 = e - k
        ∧ r.1.length = k * w + min k e.toNat + (k - 1) * sep := by
  intro k
  induction k with
  | zero => intro cc e _; exact ⟨([], e), rfl, by simp, by simp⟩
  | succ k ih =>
    intro cc e hsum
    obtain ⟨t, ht, htlen⟩ := hcell cc e
    obtain ⟨r, hr, hr2, hrlen⟩ := ih (cc + 1) (e - 1) (by omega)
    refine ⟨(t ++ r.1, r.2), by simp only [menuColumns, ht, hr, Option.map_some'], by
      simp only [hr2]; push_cast; omega, ?_⟩
    simp only [List.length_append, htlen, hrlen, Nat.succ_mul, Nat.add_sub_cancel]
    have hsep : (if cc + 1 = ncol then 0 else sep) + (k - 1) * sep = k * sep := by
      rcases Nat.eq_zero_or_pos k with hk | hk
      · subst hk; simp; omega
      · rw [if_neg (by omega)]
        obtain ⟨j, rfl⟩ : ∃ j, k = j + 1 := ⟨k - 1, by omega⟩
        simp [Nat.succ_mul]; omega
    have hmin : (if e > 0 then 1 else 0) + min k (e - 1).toNat = min (k + 1) e.toNat := by
      split <;> omega
    omega

theorem menuLine_spec (m : MenuObject) (params : List (List Char × List Char))
    (lay : MenuLayout) (hfs1 : 1 ≤ lay.field_size) (hfs2 : lay.field_size < 2 ^ 31)
    (hnum : params.length < 100) (hncol : 1 ≤ lay.ncol) (hpos : ∀ x ∈ lay.npercol, 0 ≤ x)
    (line_count : Int) (hline : 1 ≤ line_count) :
    ∃ body, menuLine m params lay line_count
        = some (m._external_border ++ [' '] ++ body ++ [' '] ++ m._external_border)
      ∧ body.length = lay.ncol.toNat * (7 + 2 * lay.field_size.toNat)
          + (lay.ncol.toNat - 1) * (m._vertical_rule.length + 2) + lay.xtraspace.toNat := by
  have hcell : ∀ cc e, ∃ t, menuCell m params lay line_count cc e = some t
      ∧ t.length = (7 + 2 * lay.field_size.toNat) + (if e > 0 then 1 else 0)
          + (if cc + 1 = lay.ncol.toNat then 0 else m._vertical_rule.length + 2) := by
    intro cc e
    obtain ⟨t, ht, hlen⟩ := menuCell_length m params lay hfs1 hfs2 hnum line_count cc
      (paramIndex_nonneg _ hpos _ hline cc) e
    refine ⟨t, ht, ?_⟩
    rw [hlen]
    have hiff : ((cc : Int) = lay.ncol - 1) ↔ (cc + 1 = lay.ncol.toNat) := by omega
    simp only [hiff]
  obtain ⟨r, hr, hr2, hrlen⟩ := menuColumns_length _ _ _ _ hcell lay.ncol.toNat 0
    lay.xtraspace (by omega)
  refine ⟨r.1 ++ List.replicate r.2.toNat ' ', ?_, ?_⟩
  · simp only [menuLine, hr, Option.map_some', List.append_assoc]
  · simp only [List.length_append, List.length_replicate, hrlen, hr2]
    omega

theorem collect_spec {α : Type} (P : α → Prop) (l : List (Option α))
    (h : ∀ x ∈ l, ∃ a, x = some a ∧ P a) :
    ∃ r, collect l = some r ∧ r.length = l.length ∧ ∀ a ∈ r, P a := by
  induction l with
  | nil => exact ⟨[], rfl, rfl, by simp⟩
  | cons x l ih =>
    obtain ⟨a, rfl, ha⟩ := h x (List.mem_cons_self _ _)
    obtain ⟨r, hr, hlen, hall⟩ := ih (fun y hy => h y (List.mem_cons_of_mem _ hy))
    refine ⟨a :: r, by simp only [collect, hr, Option.map_some'], by simp [hlen], ?_⟩
    intro b hb
    rcases List.mem_cons.mp hb with rfl | hb
    · exact ha
    · exact hall b hb

set_option maxRecDepth 100000 in
/-- The layout of the default menu for every section of 1 to 72 parameters: at least one
column and one line, fields of at least one character, and cells, rules and spare
blanks that fill the 76 characters between the borders. -/
theorem default_layout_fills_width :
    ∀ n, n < 73 → 1 ≤ n →
      ((menuLayout MenuObject.new n).map fun lay =>
        decide (1 ≤ lay.ncol ∧ 1 ≤ lay.field_size ∧ lay.field_size < 2 ^ 31
          ∧ (∀ x ∈ lay.npercol, 0 ≤ x) ∧ 1 ≤ (lay.npercol.getD 0 0).toNat
          ∧ lay.ncol.toNat * (7 + 2 * lay.field_size.toNat) + (lay.ncol.toNat - 1) * 3
              + lay.xtraspace.toNat = 76)) = some true := by
  decide

set_option maxRecDepth 20000 in
theorem default_hRule_new :
    MenuObject.new.hRule = some ('*' :: List.replicate 78 '-' ++ ['*']) := by
  decide

theorem menuLayout_default (m : MenuObject) (hm : m.hasDefaultSettings) (n : Nat) :
    menuLayout m n = menuLayout MenuObject.new n := by
  obtain ⟨hb, hv, _, hf, hw, hc⟩ := hm
  unfold menuLayout
  rw [hb, hv, hf, hw, hc]
  rfl

theorem hRule_default (m : MenuObject) (hm : m.hasDefaultSettings) :
    m.hRule = some ('*' :: List.replicate 78 '-' ++ ['*']) := by
  obtain ⟨hb, _, hh, _, hw, _⟩ := hm
  rw [← default_hRule_new]
  unfold MenuObject.hRule
  rw [hb, hh, hw]
  rfl

theorem menuLines_last_section (m : MenuObject) (section_name : List Char)
    (params : List (List Char × List Char)) (lay : MenuLayout) :
    menuLines { m with _last_section := section_name } params lay = menuLines m params lay :=
  rfl

/-- What `menuString` returns once its parts are known. -/
theorem menuString_eq (m : MenuObject) (params : List (List Char × List Char))
    (section_name : List Char) (lay : MenuLayout) (center rule : List Char)
    (lines : List (List Char))
    (hlay : menuLayout { m with _last_section := section_name } params.length = some lay)
    (hcenter : ({ m with _last_section := section_name } : MenuObject).centerString
      section_name = some center)
    (hrule : ({ m with _last_section := section_name } : MenuObject).hRule = some rule)
    (hlines : menuLines { m with _last_section := section_name } params lay = some lines)
    (hne : lines ≠ []) :
    m.menuString params section_name
      = some ({ m with _last_section := section_name },
          m._header ++ ['\n'] ++ center ++ ['\n'] ++ rule ++ ['\n']
            ++ (lines.flatMap fun line => line ++ ['\n']) ++ rule) := by
  unfold MenuObject.menuString
  simp only [hlay, hcenter, hrule, hlines, Option.some_bind, Option.map_some', hne, if_false]

/-- Claim C16: with the default menu settings (width 80, border `*`, vertical rule `|`,
horizontal rule `-`, field separator ` = `, column length 12; any header), for every
section with between 1 and 72 parameters and arbitrary key and value strings, the layout
is computed and `menuString` produces `npercol[0] >= 1` parameter lines, every one of
which has exactly 80 characters, starts with `* ` and ends with ` *`; and when the section
name fits the menu (at most 76 characters) `menuString` returns the header, the centred
section name, the horizontal rule, these lines, and the horizontal rule again. -/
theorem menuString_borders_line_up (m : MenuObject) (hm : m.hasDefaultSettings)
    (params : List (List Char × List Char))
    (hlo : 1 ≤ params.length) (hhi : params.length ≤ 72) (section_name : List Char) :
    ∃ lay lines,
      menuLayout m params.length = some lay
      ∧ menuLines m params lay = some lines
      ∧ lines.length = (lay.npercol.getD 0 0).toNat
      ∧ 1 ≤ lines.length
      ∧ (∀ line ∈ lines, line.length = 80 ∧ ∃ body, line = ['*', ' '] ++ body ++ [' ', '*'])
      ∧ (section_name.length ≤ 76 →
          ∃ center,
            m.centerString section_name = some center
            ∧ m.hRule = some ('*' :: List.replicate 78 '-' ++ ['*'])
            ∧ m.menuString params section_name
              = some ({ m with _last_section := section_name },
                  m._header ++ ['\n'] ++ center ++ ['\n']
                    ++ ('*' :: List.replicate 78 '-' ++ ['*']) ++ ['\n']
                    ++ (lines.flatMap fun line => line ++ ['\n'])
                    ++ ('*' :: List.replicate 78 '-' ++ ['*']))) := by
  have hlay := default_layout_fills_width params.length (by omega) hlo
  rw [← menuLayout_default m hm] at hlay
  obtain ⟨lay, hlayout, hgood⟩ := Option.map_eq_some'.mp hlay
  obtain ⟨hncol, hfs1, hfs2, hpos, hfirst, hfill⟩ := of_decide_eq_true hgood
  obtain ⟨hb, hv, _, _, hw, _⟩ := id hm
  have hline : ∀ x ∈ (List.range (lay.npercol.getD 0 0).toNat).map (fun (k : Nat) =>
      menuLine m params lay ((k : Int) + 1)),
      ∃ line, x = some line
        ∧ (line.length = 80 ∧ ∃ body, line = ['*', ' '] ++ body ++ [' ', '*']) := by
    intro x hx
    obtain ⟨k, _, rfl⟩ := List.mem_map.mp hx
    obtain ⟨body, hbody, hlen⟩ := menuLine_spec m params
      lay hfs1 hfs2 (by omega) hncol hpos ((k : Int) + 1) (by omega)
    rw [hb] at hbody
    rw [hv] at hlen
    simp only [List.length_cons, List.length_nil] at hlen
    refine ⟨_, hbody, ?_, body, by simp only [List.append_assoc]; rfl⟩
    simp only [List.length_append, List.length_cons, List.length_nil, hlen]
    omega
  obtain ⟨lines, hlines, hcount, hall⟩ := collect_spec _ _ hline
  rw [List.length_map, List.length_range] at hcount
  refine ⟨lay, lines, hlayout, hlines, hcount, by omega, hall, ?_⟩
  intro hsec
  have hne : lines ≠ [] := by
    intro h
    rw [h] at hcount
    simp only [List.length_nil] at hcount
    omega
  have hcenter := centerString_eq m (by rw [hb]; rfl) (by rw [hw]; decide) section_name
    (by rw [hw]; omega)
  refine ⟨_, hcenter, hRule_default m hm, ?_⟩
  exact menuString_eq m params section_name lay _ _ lines
    ((menuLayout_default _ hm _).trans ((menuLayout_default m hm _).symm.trans hlayout))
    hcenter (hRule_default _ hm) hlines hne

/-- The default menu with a section of one parameter. -/
theorem menuString_borders_line_up_witness :
    MenuObject.new.hasDefaultSettings ∧ 1 ≤ [(['k'], ['v'])].length
      ∧ [(['k'], ['v'])].length ≤ 72
      ∧ ∃ lay lines,
        menuLayout MenuObject.new [(['k'], ['v'])].length = some lay
        ∧ menuLines MenuObject.new [(['k'], ['v'])] lay = some lines
        ∧ lines.length = (lay.npercol.getD 0 0).toNat
        ∧ 1 ≤ lines.length
        ∧ (∀ line ∈ lines, line.length = 80 ∧ ∃ body, line = ['*', ' '] ++ body ++ [' ', '*'])
        ∧ (['s'].length ≤ 76 →
            ∃ center,
              MenuObject.new.centerString ['s'] = some center
              ∧ MenuObject.new.hRule = some ('*' :: List.replicate 78 '-' ++ ['*'])
              ∧ MenuObject.new.menuString [(['k'], ['v'])] ['s']
                = some ({ MenuObject.new with _last_section := ['s'] },
                    MenuObject.new._header ++ ['\n'] ++ center ++ ['\n']
                      ++ ('*' :: List.replicate 78 '-' ++ ['*']) ++ ['\n']
                      ++ (lines.flatMap fun line => line ++ ['\n'])
                      ++ ('*' :: List.replicate 78 '-' ++ ['*']))) :=
  ⟨⟨rfl, rfl, rfl, rfl, rfl, rfl⟩, by decide, by decide,
    menuString_borders_line_up MenuObject.new ⟨rfl, rfl, rfl, rfl, rfl, rfl⟩
      [(['k'], ['v'])] (by decide) (by decide) ['s']⟩

set_option maxRecDepth 20000 in
/-- The default menu on a section with the one parameter `key = value`: the layout has one
column with fields of 34 characters, and the parameter line is the 80 characters shown. -/
theorem menuLines_one_parameter_example :
    ((menuLayout MenuObject.new 1).bind fun lay =>
        menuLines MenuObject.new [("key".toList, "value".toList)] lay)
      = some ["* 1 ) key                                = value                               *".toList] := by
  decide

end Util

namespace Sys

/-! ### Library loader -/

/-- Claim C19: for every name and path, `Load` returns 1 exactly when the library cannot
be opened, and then leaves the stored name and handle unchanged and closes nothing (a
previously loaded library stays loaded); otherwise it returns 0, closes a previously
held handle exactly once (and nothing when none was held), and afterwards
`Name() == name` and `Handle()` is the newly opened handle. -/
theorem Load_error_handling (lib : DynamicObjectLib) (dlopen : String → Nat)
    (name path : String) :
    ((lib.Load dlopen name path).ret = 1 ↔ dlopen path = 0)
    ∧ (dlopen path = 0 →
        (lib.Load dlopen name path).lib = lib ∧ (lib.Load dlopen name path).closed = [])
    ∧ (dlopen path ≠ 0 →
        (lib.Load dlopen name path).ret = 0
        ∧ (lib.Load dlopen name path).closed = (if lib.second ≠ 0 then [lib.second] else [])
        ∧ (lib.Load dlopen name path).lib.Name = name
        ∧ (lib.Load dlopen name path).lib.Handle = dlopen path) := by
  by_cases h : dlopen path = 0
  · simp [DynamicObjectLib.Load, h]
  · simp [DynamicObjectLib.Load, h, DynamicObjectLib.Name, DynamicObjectLib.Handle]

/-- A library held under handle 3: a path that opens as handle 9 replaces it and closes
handle 3 once; a path that does not open leaves it in place. -/
theorem Load_replaces_or_keeps_example :
    ({ first := "old", second := 3, _path := "" } : DynamicObjectLib).Load
        (fun p => if p = "libnew.so" then 9 else 0) "new" "libnew.so"
      = { lib := { first := "new", second := 9, _path := "" }, closed := [3], ret := 0 }
    ∧ ({ first := "old", second := 3, _path := "" } : DynamicObjectLib).Load
        (fun p => if p = "libnew.so" then 9 else 0) "new" "missing.so"
      = { lib := { first := "old", second := 3, _path := "" }, closed := [], ret := 1 } := by
  exact ⟨by decide, by decide⟩

end Sys
end IRAD
